import Mathlib

/-!
Verification of the version-control engine (implementation 2: vc.py / vc_objects.py,
with the branch command of implementation 1 where noted).

Modelling conventions:
- Byte strings are modelled as Lean strings whose characters stand for single bytes
  (the repository only ever treats content as opaque byte sequences, and encode and
  decode are the identity under this convention; len gives the byte count).
- hashlib.sha1 is an external library collaborator, so the development is
  parameterised over an arbitrary digest function sha1 of type String to String;
  no claim below needs any property of the digest beyond it being a function.
- The object store (directory .vc/objects, sharded by the first two hex characters)
  is modelled as an association list from hash to stored object.  zlib compression
  is a bijection applied at the storage boundary, and VCObject.deserialize of
  VCObject.serialize recovers exactly (obj_type, content), so the store keeps the
  typed object itself.
- Python dicts are modelled as insertion-ordered association lists; assignment
  replaces in place when the key is present and appends otherwise, exactly as
  Python dict assignment behaves.
- Fallible Python code (raised exceptions) is modelled with Option, none meaning
  the call raises.
-/

namespace VCS

/-- Python dict lookup on an insertion-ordered association list. -/
def alookup {α : Type} : List (String × α) → String → Option α
  | [], _ => none
  | (k, v) :: rest, key => if k = key then some v else alookup rest key

/-- Python dict assignment: replace the value in place if the key is present,
    otherwise append the new binding at the end. -/
def assocSet {α : Type} : List (String × α) → String → α → List (String × α)
  | [], key, v => [(key, v)]
  | (k, w) :: rest, key, v =>
    if k = key then (key, v) :: rest else (k, w) :: assocSet rest key v

/-- Number of stored bindings whose key equals the given key. -/
def countKey {α : Type} (l : List (String × α)) (key : String) : Nat :=
  (l.filter (fun kv => kv.1 == key)).length

/-- Python truthiness of an optional string: None and the empty string are falsy.
    get_branch_commit returns either None or the (stripped) file content, and the
    code guards uses with plain if tests. -/
def pyTruthy (o : Option String) : Option String :=
  match o with
  | none => none
  | some s => if s = "" then none else some s

/-- vc_objects.VCObject: an object is a type tag plus a byte payload. -/
structure VCObject where
  obj_type : String
  content : String
deriving DecidableEq, Repr

/-- VCObject.hash: sha1 hexdigest of the header "type length\x00" plus content. -/
def vcHash (sha1 : String → String) (o : VCObject) : String :=
  sha1 (o.obj_type ++ " " ++ toString o.content.length ++ "\x00" ++ o.content)

/-- vc_objects.Blob. -/
def Blob (c : String) : VCObject := ⟨"blob", c⟩

/-- Value of one hex digit character (bytes.fromhex accepts 0-9, a-f, A-F;
    on other characters Python raises, but the program only applies it to sha1
    hexdigests, so the total model returns 0 there). -/
def hexVal (c : Char) : Nat :=
  if '0' ≤ c ∧ c ≤ '9' then c.toNat - '0'.toNat
  else if 'a' ≤ c ∧ c ≤ 'f' then c.toNat - 'a'.toNat + 10
  else if 'A' ≤ c ∧ c ≤ 'F' then c.toNat - 'A'.toNat + 10
  else 0

/-- bytes.fromhex on the character list: consume hex digits two at a time. -/
def fromHexChars : List Char → List Char
  | a :: b :: rest => Char.ofNat (16 * hexVal a + hexVal b) :: fromHexChars rest
  | _ => []

/-- bytes.fromhex. -/
def fromHex (s : String) : String := String.mk (fromHexChars s.data)

/-- Lowercase hex digit for a value below 16. -/
def hexDigit (n : Nat) : Char :=
  if n < 10 then Char.ofNat ('0'.toNat + n) else Char.ofNat ('a'.toNat + (n - 10))

/-- bytes.hex on the character list: two lowercase digits per byte. -/
def toHexChars : List Char → List Char
  | [] => []
  | c :: rest => hexDigit (c.toNat / 16 % 16) :: hexDigit (c.toNat % 16) :: toHexChars rest

/-- bytes.hex. -/
def toHex (s : String) : String := String.mk (toHexChars s.data)

/-- One tree entry (mode, name, hash-hex), the tuples held in Tree.entries. -/
abbrev Entry := String × String × String

/-- Python string comparison: lexicographic on code points. -/
def cmpChars : List Char → List Char → Ordering
  | [], [] => .eq
  | [], _ :: _ => .lt
  | _ :: _, [] => .gt
  | a :: as, b :: bs =>
    if a.toNat < b.toNat then .lt
    else if b.toNat < a.toNat then .gt
    else cmpChars as bs

/-- Python string comparison on our byte strings. -/
def cmpStr (a b : String) : Ordering := cmpChars a.data b.data

/-- Python tuple comparison of two entries: component-wise lexicographic on
    (mode, name, hash), exactly what sorted(self.entries) uses. -/
def cmpEntry (x y : Entry) : Ordering :=
  (cmpStr x.1 y.1).then ((cmpStr x.2.1 y.2.1).then (cmpStr x.2.2 y.2.2))

/-- The (non-strict) order used by sorted(self.entries). -/
def entryLe (x y : Entry) : Prop := cmpEntry x y ≠ Ordering.gt

instance : DecidableRel entryLe := fun x y =>
  inferInstanceAs (Decidable (cmpEntry x y ≠ Ordering.gt))

/-- sorted(self.entries) in Tree._serialize_entries. -/
def sortEntries (es : List Entry) : List Entry := List.insertionSort entryLe es

/-- One serialized entry: "mode name\x00" followed by the raw hash bytes. -/
def renderEntry (e : Entry) : String := e.1 ++ " " ++ e.2.1 ++ "\x00" ++ fromHex e.2.2

/-- Tree._serialize_entries: serialize the entries in sorted tuple order. -/
def serializeEntries (es : List Entry) : String :=
  String.join ((sortEntries es).map renderEntry)

/-- vc_objects.Tree as a VCObject: type tag "tree", canonical payload. -/
def TreeObj (es : List Entry) : VCObject := ⟨"tree", serializeEntries es⟩

/-- The object store: hash to stored object (.vc/objects/hh/rest). -/
abbrev Store := List (String × VCObject)

/-- VersionControl.store_object: compute the hash, write the object only if the
    file for that hash does not exist yet, and return the hash either way. -/
def store_object (sha1 : String → String) (st : Store) (o : VCObject) : Store × String :=
  match alookup st (vcHash sha1 o) with
  | some _ => (st, vcHash sha1 o)
  | none => ((vcHash sha1 o, o) :: st, vcHash sha1 o)

/-- Concrete tree entries used to examine the serialization order: a subtree
    named a and a regular file named z. -/
def c8entries : List Entry := [("40000", "a", "0a"), ("100644", "z", "0b")]

/-- Whitespace recognised by Python str.strip (the characters that occur in this
    program's data). -/
def isSpaceChar (c : Char) : Bool := c = ' ' || c = '\n' || c = '\t' || c = '\x0d'

/-- Python str.strip(). -/
def pyStrip (s : String) : String :=
  String.mk (((s.data.dropWhile isSpaceChar).reverse.dropWhile isSpaceChar).reverse)

/-- Python str.startswith on the character lists. -/
def charsStartWith : List Char → List Char → Bool
  | _, [] => true
  | [], _ :: _ => false
  | a :: as, b :: bs => a = b && charsStartWith as bs

/-- Python str.startswith. -/
def strStartsWith (s pre : String) : Bool := charsStartWith s.data pre.data

/-- Python slicing s[n:]. -/
def strDrop (s : String) (n : Nat) : String := String.mk (s.data.drop n)

/-- Python str.split(sep) for a one-character separator, on character lists. -/
def splitChar (sep : Char) : List Char → List (List Char)
  | [] => [[]]
  | c :: rest =>
    let r := splitChar sep rest
    if c = sep then [] :: r
    else
      match r with
      | [] => [[c]]
      | g :: gs => (c :: g) :: gs

/-- Python str.split(sep) for a one-character separator. -/
def strSplit (s : String) (sep : Char) : List String := (splitChar sep s.data).map String.mk

/-- Python sep.join(parts). -/
def joinSep (sep : String) : List String → String
  | [] => ""
  | [x] => x
  | x :: y :: rest => x ++ sep ++ joinSep sep (y :: rest)

/-- The persistent state of an implementation-2 repository: object store,
    one file per branch under .vc/refs/heads (content as written, including the
    trailing newline), the HEAD file content (none when the file is missing),
    the staging index, and the working directory files (path to byte content). -/
structure Repo where
  objects : Store
  heads : List (String × String)
  headRef : Option String
  index : List (String × String)
  workdir : List (String × String)
deriving Repr

/-- VersionControl.get_current_branch: missing HEAD means master; a symbolic
    ref yields the branch name after the prefix; anything else means detached
    and the literal name HEAD is returned. -/
def get_current_branch (r : Repo) : String :=
  match r.headRef with
  | none => "master"
  | some c =>
    if strStartsWith (pyStrip c) "ref: refs/heads/" then strDrop (pyStrip c) 16 else "HEAD"

/-- VersionControl.get_branch_commit: stripped content of the branch file, or
    None when the branch file does not exist. -/
def get_branch_commit (r : Repo) (branch : String) : Option String :=
  (alookup r.heads branch).map pyStrip

/-- VersionControl.set_branch_commit: write hash plus newline to the branch
    file. -/
def set_branch_commit (r : Repo) (branch commit_hash : String) : Repo :=
  { r with heads := assocSet r.heads branch (commit_hash ++ "\n") }

/-- VersionControl.load_object: none when the object file is missing
    (FileNotFoundError). -/
def load_object (r : Repo) (h : String) : Option VCObject := alookup r.objects h

/-- The deleted-files loop of VersionControl.status (implementation 2): walk
    the staging index in order and keep every path missing from the working
    files. -/
def status_deleted (index working_files : List (String × String)) : List String :=
  (index.map Prod.fst).filter (fun p => (alookup working_files p).isNone)

/-- The deleted-files loop of implementation 1's VersionControl.status (the
    Changes-not-staged section): walk the flattened committed snapshot and keep
    every path that is absent from the working files and not staged.  The three
    arguments are the flattened path sets snapshot_flat, staged_flat and
    working_files the surrounding code computes. -/
def i1_status_deleted (snapshot_flat staged_flat working_files : List String) :
    List String :=
  snapshot_flat.filter
    (fun path => !(working_files.contains path) && !(staged_flat.contains path))

/-- Outcome reported by the implementation-2 branch command. -/
inductive BranchMsg where
  | deleted
  | deleteNotFound
  | created
  | noCommits
  | listed
deriving DecidableEq, Repr

/-- VersionControl.branch (implementation 2): with the delete flag remove the
    branch file if present; with a (truthy) name map it to the current commit
    whenever one exists, with no existence check; with no name just list. -/
def branchCmd (r : Repo) (branch_name : String) (del : Bool) : Repo × BranchMsg :=
  if del ∧ branch_name ≠ "" then
    if (alookup r.heads branch_name).isSome then
      ({ r with heads := r.heads.filter (fun kv => kv.1 != branch_name) }, .deleted)
    else (r, .deleteNotFound)
  else if branch_name ≠ "" then
    match pyTruthy (get_branch_commit r (get_current_branch r)) with
    | some c => (set_branch_commit r branch_name c, .created)
    | none => (r, .noCommits)
  else (r, .listed)

/-- Implementation 1: the branch bookkeeping part of the index.json record. -/
structure I1Head where
  current_branch : String
  current_commit : String
  branches : List (String × String)
deriving DecidableEq, Repr

/-- Outcome reported by the implementation-1 branch command. -/
inductive I1BranchMsg where
  | exists_already
  | created
deriving DecidableEq, Repr

/-- Implementation 1 VersionControl.branch: refuse an existing name, otherwise
    anchor the new branch at current_commit, which is the empty string when the
    repository has no commits yet. -/
def impl1_branch (h : I1Head) (name : String) : I1Head × I1BranchMsg :=
  if (alookup h.branches name).isSome then (h, .exists_already)
  else ({ h with branches := assocSet h.branches name h.current_commit }, .created)

/-- Nested Python dict value in create_tree_from_index: a blob hash string or
    a subdirectory dict. -/
inductive PVal where
  | str : String → PVal
  | dict : List (String × PVal) → PVal
deriving Repr

/-- The nested insertion in create_tree_from_index for a multi-component path:
    walk or create intermediate dicts and set the final component to the blob
    hash.  none models the TypeError raised when an intermediate component
    already holds a string (a file) rather than a dict. -/
def insertParts : List (String × PVal) → List String → String → Option (List (String × PVal))
  | d, [last], h => some (assocSet d last (PVal.str h))
  | d, p :: q :: rest, h =>
    match alookup d p with
    | none =>
      match insertParts [] (q :: rest) h with
      | none => none
      | some sub => some (assocSet d p (PVal.dict sub))
    | some (PVal.dict sub) =>
      match insertParts sub (q :: rest) h with
      | none => none
      | some sub2 => some (assocSet d p (PVal.dict sub2))
    | some (PVal.str _) => none
  | _, [], _ => none

/-- One iteration of the partitioning loop of create_tree_from_index: a single
    component path goes into the flat files dict, a multi-component path is
    inserted into the nested dirs structure. -/
def buildStep (s : Option (List (String × String) × List (String × PVal)))
    (kv : String × String) : Option (List (String × String) × List (String × PVal)) :=
  match s with
  | none => none
  | some (files, dirs) =>
    match strSplit kv.1 '/' with
    | [single] => some (assocSet files single kv.2, dirs)
    | parts =>
      match insertParts dirs parts kv.2 with
      | none => none
      | some dirs2 => some (files, dirs2)

/-- The partitioning loop of create_tree_from_index over the whole index, in
    index order. -/
def buildNested (index : List (String × String)) :
    Option (List (String × String) × List (String × PVal)) :=
  index.foldl buildStep (some ([], []))

/-- root_entries: the files dict first ({**files}), then each top-level
    directory assigned over it. -/
def mergeRoot (files : List (String × String)) (dirs : List (String × PVal)) :
    List (String × PVal) :=
  dirs.foldl (fun m kv => assocSet m kv.1 kv.2)
    (files.map (fun kv => (kv.1, PVal.str kv.2)))

mutual
/-- create_tree_recursive: build the entries of one directory level (storing
    subtrees as they are encountered), then store the tree for this level and
    return the updated store with this level's tree hash. -/
def treeFromDict (sha1 : String → String) (st : Store) (d : List (String × PVal)) :
    Store × String :=
  match entriesFromDict sha1 st d with
  | (st2, es) => store_object sha1 st2 (TreeObj es)
termination_by (sizeOf d, 1)

/-- The entry-collection loop of create_tree_recursive. -/
def entriesFromDict (sha1 : String → String) (st : Store) (l : List (String × PVal)) :
    Store × List Entry :=
  match l with
  | [] => (st, [])
  | (name, PVal.str h) :: rest =>
    match entriesFromDict sha1 st rest with
    | (st2, es) => (st2, ("100644", name, h) :: es)
  | (name, PVal.dict sub) :: rest =>
    match treeFromDict sha1 st sub with
    | (st1, sh) =>
      match entriesFromDict sha1 st1 rest with
      | (st2, es) => (st2, ("40000", name, sh) :: es)
termination_by (sizeOf l, 0)
end

/-- VersionControl.create_tree_from_index: an empty index stores and returns
    the empty tree; otherwise partition the index, build the nested trees
    bottom-up, and return the root tree hash.  none models the TypeError
    raised by the nested insertion on conflicting paths. -/
def create_tree_from_index (sha1 : String → String) (r : Repo) : Option (Store × String) :=
  if r.index.isEmpty then some (store_object sha1 r.objects (TreeObj []))
  else
    match buildNested r.index with
    | none => none
    | some (files, dirs) => some (treeFromDict sha1 r.objects (mergeRoot files dirs))

/-- The fields of vc_objects.Commit as recovered by Commit.from_content;
    optional fields are None when the corresponding line is missing.
    Commit.__init__ replaces a falsy timestamp (0) by the wall clock, which no
    claim depends on; the parsed integer is kept as is. -/
structure CommitRec where
  tree_hash : Option String
  parent_hashes : List String
  author : Option String
  committer : Option String
  message : String
  timestamp : Int
deriving DecidableEq, Repr

/-- Commit._serialize_commit for the commits the program constructs. -/
def serializeCommit (tree_hash : String) (parents : List String)
    (author committer : String) (ts : Int) (msg : String) : String :=
  joinSep "\n" (["tree " ++ tree_hash]
    ++ parents.map (fun p => "parent " ++ p)
    ++ ["author " ++ author ++ " " ++ toString ts ++ " +0000",
        "committer " ++ committer ++ " " ++ toString ts ++ " +0000",
        "", msg])

/-- Python str.rsplit(" ", 2). -/
def rsplit2 (s : String) : List String :=
  match (strSplit s ' ').reverse with
  | b :: a :: x :: xs => [joinSep " " (x :: xs).reverse, a, b]
  | l => l.reverse

/-- Decimal digits to a number; none on any non-digit (int() raising). -/
def digitsToNatAux : List Char → Nat → Option Nat
  | [], acc => some acc
  | c :: rest, acc =>
    if '0' ≤ c ∧ c ≤ '9' then digitsToNatAux rest (acc * 10 + (c.toNat - '0'.toNat))
    else none

/-- Python int(s) on the strings this program produces: optional sign and
    decimal digits, whitespace stripped; none models the ValueError. -/
def pyToInt (s : String) : Option Int :=
  match (pyStrip s).data with
  | [] => none
  | '-' :: rest =>
    match rest with
    | [] => none
    | _ => (digitsToNatAux rest 0).map (fun n => -(n : Int))
  | '+' :: rest =>
    match rest with
    | [] => none
    | _ => (digitsToNatAux rest 0).map (fun n => (n : Int))
  | cs => (digitsToNatAux cs 0).map (fun n => (n : Int))

/-- Loop state of Commit.from_content; ts none models the Python local
    variable timestamp being still unbound. -/
structure PCAcc where
  tree_hash : Option String
  parents : List String
  author : Option String
  committer : Option String
  ts : Option Int
deriving Repr

/-- The line loop of Commit.from_content.  Returns the final accumulator and
    the message start index (none when the loop ended without a blank line, in
    which case message_start keeps its initial value 0); the outer none models
    a raised exception (IndexError or ValueError while parsing an author
    line). -/
def pcLoop : List String → Nat → PCAcc → Option (PCAcc × Option Nat)
  | [], _, acc => some (acc, none)
  | line :: rest, i, acc =>
    if strStartsWith line "tree " then
      pcLoop rest (i + 1) { acc with tree_hash := some (strDrop line 5) }
    else if strStartsWith line "parent " then
      pcLoop rest (i + 1) { acc with parents := acc.parents ++ [strDrop line 7] }
    else if strStartsWith line "author " then
      match rsplit2 (strDrop line 7) with
      | [_] => none
      | a :: t :: _ =>
        match pyToInt t with
        | none => none
        | some ts => pcLoop rest (i + 1) { acc with author := some a, ts := some ts }
      | [] => none
    else if strStartsWith line "committer " then
      match rsplit2 (strDrop line 10) with
      | c :: _ => pcLoop rest (i + 1) { acc with committer := some c }
      | [] => none
    else if line = "" then some (acc, some (i + 1))
    else pcLoop rest (i + 1) acc

/-- Commit.from_content: parse the text lines; none models a raised exception,
    including the NameError when no author line ever bound timestamp. -/
def parseCommit (content : String) : Option CommitRec :=
  match pcLoop (strSplit content '\n') 0 ⟨none, [], none, none, none⟩ with
  | none => none
  | some (acc, msStart) =>
    match acc.ts with
    | none => none
    | some ts =>
      some ⟨acc.tree_hash, acc.parents, acc.author, acc.committer,
        joinSep "\n" ((strSplit content '\n').drop
          (match msStart with | none => 0 | some i => i)), ts⟩

/-- The success tail of VersionControl.commit: construct the commit object,
    store it, advance the current branch ref, clear the staging index. -/
def commitFinish (sha1 : String → String) (r : Repo) (st1 : Store) (tree_hash : String)
    (parent_hashes : List String) (message author email : String) (now : Int) :
    Repo × Option String :=
  match store_object sha1 st1
      ⟨"commit", serializeCommit tree_hash parent_hashes author email now message⟩ with
  | (st2, commit_hash) =>
    ({ r with
        objects := st2
        heads := assocSet r.heads (get_current_branch r) (commit_hash ++ "\n")
        index := [] },
      some commit_hash)

/-- VersionControl.commit (implementation 2).  The pair holds the final
    repository state and the returned commit hash, none standing for the
    printed nothing-to-commit early return; the outer none models a raised
    exception (conflicting index paths in create_tree_from_index, a missing
    parent object, or an unparsable parent commit).  now stands for
    int(time.time()). -/
def commitCmd (sha1 : String → String) (r : Repo) (message author email : String)
    (now : Int) : Option (Repo × Option String) :=
  match create_tree_from_index sha1 r with
  | none => none
  | some (st1, tree_hash) =>
    match pyTruthy (get_branch_commit r (get_current_branch r)) with
    | some p =>
      if r.index.isEmpty then some ({ r with objects := st1 }, none)
      else
        match alookup st1 p with
        | none => none
        | some obj =>
          match parseCommit obj.content with
          | none => none
          | some pc =>
            if pc.tree_hash = some tree_hash then some ({ r with objects := st1 }, none)
            else some (commitFinish sha1 r st1 tree_hash [p] message author email now)
    | none =>
      if r.index.isEmpty then some ({ r with objects := st1 }, none)
      else some (commitFinish sha1 r st1 tree_hash [] message author email now)

/-- The constant digest: convenient for concrete witnesses, since no claim
    needs any property of the digest function. -/
def constH : String → String := fun _ => "H"

/-- Serialized parent commit content whose tree hash is H. -/
def c4commitContent : String :=
  "tree H\nauthor a 1 +0000\ncommitter b 1 +0000\n\nm"

/-- Concrete repository whose staged file a produces exactly the parent
    commit's tree again (under the constant digest). -/
def c4repo : Repo :=
  { objects := [("P", ⟨"commit", c4commitContent⟩)]
    heads := [("master", "P\n")]
    headRef := some "ref: refs/heads/master"
    index := [("a", "x")]
    workdir := [] }

/-- Concrete repository with an empty staging index and an empty object
    store. -/
def c5repo : Repo :=
  { objects := []
    heads := [("master", "P\n")]
    headRef := some "ref: refs/heads/master"
    index := []
    workdir := [] }

/-- Implementation 1: one commit record of commit_list.json. -/
structure I1Commit where
  tree : String
  parent : String
  message : String
  author : String
  email : String
deriving DecidableEq, Repr

/-- Implementation 1: the persistent state touched by commit: the staging dict
    (stage.json, a nested path dict), the stored trees (commit_tree/hash.json,
    each file holding a staged dict), the commit list, and the index.json
    record; a missing current_branch value is modelled by the empty string,
    which the code treats the same way (falsy). -/
structure I1Repo where
  stage : List (String × PVal)
  trees : List (String × List (String × PVal))
  commits : List (String × I1Commit)
  current_branch : String
  current_commit : String
  branches : List (String × String)
  current_snapshot : List (String × PVal)
deriving Repr

/-- Implementation 1 deep_merge: fold the new dict over the base dict; the
    marker __deleted__ removes the key, a nested dict merges recursively into
    the value already there (an empty dict for a missing key), and any other
    value overwrites.  none models the TypeError Python raises when the value
    already there is a string and the incoming nonempty dict is iterated over
    it; an incoming empty dict runs no loop body and writes the string back. -/
def deep_merge : List (String × PVal) → List (String × PVal) → Option (List (String × PVal))
  | base, [] => some base
  | base, (key, PVal.str v) :: rest =>
    if v = "__deleted__" then deep_merge (base.filter (fun kv => kv.1 != key)) rest
    else deep_merge (assocSet base key (PVal.str v)) rest
  | base, (key, PVal.dict sub) :: rest =>
    match alookup base key with
    | some (PVal.str sv) =>
      if sub.isEmpty then deep_merge (assocSet base key (PVal.str sv)) rest
      else none
    | some (PVal.dict b) =>
      match deep_merge b sub with
      | none => none
      | some merged => deep_merge (assocSet base key (PVal.dict merged)) rest
    | none =>
      match deep_merge [] sub with
      | none => none
      | some merged => deep_merge (assocSet base key (PVal.dict merged)) rest
termination_by _ new => sizeOf new

/-- The while loop of implementation 1 build_snapshot: follow parent pointers
    from the given hash while the hash is truthy, collecting the visited commit
    records in visit order.  none models a KeyError on a hash missing from the
    commit list, or a walk that never returns (the fuel is the budget). -/
def i1_chain (commits : List (String × I1Commit)) : Nat → String → Option (List I1Commit)
  | _, "" => some []
  | 0, _ => none
  | fuel + 1, cur =>
    match alookup commits cur with
    | none => none
    | some c => (i1_chain commits fuel c.parent).map (fun rest => c :: rest)

/-- Implementation 1 build_snapshot: walk the parent chain, reverse it, and
    deep-merge every stored tree file that exists, oldest first. -/
def build_snapshot (trees : List (String × List (String × PVal)))
    (commits : List (String × I1Commit)) (fuel : Nat) (commit_hash : String) :
    Option (List (String × PVal)) :=
  match i1_chain commits fuel commit_hash with
  | none => none
  | some chain =>
    chain.reverse.foldl (fun acc c =>
      match acc with
      | none => none
      | some snapshot =>
        match alookup trees c.tree with
        | none => some snapshot
        | some subtree => deep_merge snapshot subtree) (some [])

/-- Implementation 1 VersionControl.commit: an empty (falsy) stage prints
    nothing-to-commit and returns before touching any state; otherwise the
    stage is hashed and stored as a tree file when absent, the commit record is
    hashed and appended, the snapshot is rebuilt from the updated commit list,
    a truthy current branch is advanced, the current commit and snapshot are
    replaced and the stage is cleared.  dumpsTree and dumpsCommit stand for the
    external library serializer json.dumps(·, sort_keys=True) on the two record
    shapes, and sha1 for hashlib.sha1(·).hexdigest(); the returned message is
    the printed commit hash, none standing for the nothing-to-commit print;
    the outer none models build_snapshot raising or never returning. -/
def impl1_commit (sha1 : String → String)
    (dumpsTree : List (String × PVal) → String) (dumpsCommit : I1Commit → String)
    (fuel : Nat) (r : I1Repo) (message author email : String) :
    Option (I1Repo × Option String) :=
  if r.stage.isEmpty then some (r, none)
  else
    let tree_hash := sha1 (dumpsTree r.stage)
    let trees2 := match alookup r.trees tree_hash with
      | some _ => r.trees
      | none => assocSet r.trees tree_hash r.stage
    let commit_obj : I1Commit := ⟨tree_hash, r.current_commit, message, author, email⟩
    let commit_hash := sha1 (dumpsCommit commit_obj)
    let commits2 := assocSet r.commits commit_hash commit_obj
    match build_snapshot trees2 commits2 fuel commit_hash with
    | none => none
    | some new_snapshot =>
      some ({ r with
          stage := []
          trees := trees2
          commits := commits2
          branches := if r.current_branch = "" then r.branches
            else assocSet r.branches r.current_branch commit_hash
          current_commit := commit_hash
          current_snapshot := new_snapshot }, some commit_hash)

/-- Concrete implementation-1 repository with an empty stage and one existing
    commit. -/
def c5repoI1 : I1Repo :=
  { stage := []
    trees := [("T", [("a", PVal.str "h")])]
    commits := [("C", ⟨"T", "", "m0", "a0", "e0"⟩)]
    current_branch := "master"
    current_commit := "C"
    branches := [("master", "C")]
    current_snapshot := [("a", PVal.str "h")] }

/-- The walking loop of VersionControl.log: follow parent_hashes[0] from the
    given commit hash while the hash is truthy and the printed count stays
    below max_count (the Nat argument is the remaining budget).  none models
    load_object or Commit.from_content raising. -/
def logWalk (st : Store) : Nat → Option String → Option (List (String × CommitRec))
  | _, none => some []
  | 0, some _ => some []
  | fuel + 1, some h =>
    if h = "" then some []
    else
      match alookup st h with
      | none => none
      | some o =>
        match parseCommit o.content with
        | none => none
        | some c =>
          match logWalk st fuel c.parent_hashes.head? with
          | none => none
          | some rest => some ((h, c) :: rest)

/-- VersionControl.log: start from the current branch head; a falsy start hash
    prints no-commits (inner none); otherwise the walked sequence is printed. -/
def logCmd (r : Repo) (max_count : Nat) : Option (Option (List (String × CommitRec))) :=
  match pyTruthy (get_branch_commit r (get_current_branch r)) with
  | none => some none
  | some h => (logWalk r.objects max_count (some h)).map some

/-- Well-formedness of a store for log walking: every stored object that
    parses as a commit has only nonempty parent hashes (a commit hash is never
    the empty string). -/
def wfStore (st : Store) : Prop :=
  ∀ k o c, alookup st k = some o → parseCommit o.content = some c →
    ∀ q, q ∈ c.parent_hashes → q ≠ ""

/-- Concrete store holding a single parentless commit under hash R. -/
def c9store : Store :=
  [("R", ⟨"commit", "tree t\nauthor a 1 +0000\ncommitter b 1 +0000\n\nm"⟩)]

/-- The parse of the single commit in the concrete log store. -/
def c9rec : CommitRec := ⟨some "t", [], some "a", some "b", "m", 1⟩

/-- Split at the first space (str.split(" ", 1) with exactly one split); none
    when there is no space. -/
def splitFirstSpace : List Char → Option (List Char × List Char)
  | [] => none
  | c :: rest =>
    if c = ' ' then some ([], rest)
    else
      match splitFirstSpace rest with
      | none => none
      | some (a, b) => some (c :: a, b)

/-- Split at the first null byte (content.find of the null byte); none when no
    null byte remains, which ends the scanning loop. -/
def splitAtNull : List Char → Option (List Char × List Char)
  | [] => none
  | c :: rest =>
    if c = '\x00' then some ([], rest)
    else
      match splitAtNull rest with
      | none => none
      | some (a, b) => some (c :: a, b)

/-- The scanning loop of Tree.from_content: each entry is mode and name up to
    the null byte, then twenty raw hash bytes rendered as hex; the loop breaks
    when no null byte remains.  none models the ValueError when a mode-name
    field has no space. -/
def parseTreeGo : Nat → List Char → Option (List Entry)
  | 0, _ => some []
  | fuel + 1, cs =>
    match splitAtNull cs with
    | none => some []
    | some (mn, rest) =>
      match splitFirstSpace mn with
      | none => none
      | some (m, nm) =>
        match parseTreeGo fuel (rest.drop 20) with
        | none => none
        | some es =>
          some ((String.mk m, String.mk nm, String.mk (toHexChars (rest.take 20))) :: es)

/-- Tree.from_content. -/
def parseTreeEntries (s : String) : Option (List Entry) :=
  parseTreeGo (s.length + 1) s.data

mutual
/-- VersionControl.get_files_from_tree_recursive: collect the file paths of a
    stored tree; every failure (missing object, unparsable payload, exhausted
    recursion budget) is caught by the except branch, which returns the files
    collected so far at that node. -/
def getFilesFromTree (st : Store) (fuel : Nat) (h pre : String) : List String :=
  match fuel with
  | 0 => []
  | fuel2 + 1 =>
    match alookup st h with
    | none => []
    | some o =>
      match parseTreeEntries o.content with
      | none => []
      | some es => gfftEntries st fuel2 es pre
termination_by (fuel, 0, 0)

/-- The entry loop of get_files_from_tree_recursive. -/
def gfftEntries (st : Store) (fuel : Nat) (es : List Entry) (pre : String) :
    List String :=
  match es with
  | [] => []
  | (mode, name, hsh) :: rest =>
    if strStartsWith mode "100" then (pre ++ name) :: gfftEntries st fuel rest pre
    else if strStartsWith mode "400" then
      getFilesFromTree st fuel hsh (pre ++ name ++ "/") ++ gfftEntries st fuel rest pre
    else gfftEntries st fuel rest pre
termination_by (fuel, 1, sizeOf es)
end

/-- The non-strict string order of Python sorted on strings. -/
def strLe (a b : String) : Prop := cmpStr a b ≠ Ordering.gt

instance : DecidableRel strLe := fun a b =>
  inferInstanceAs (Decidable (cmpStr a b ≠ Ordering.gt))

/-- Python sorted(set(l)): the distinct members in ascending order. -/
def sortedNubStr (l : List String) : List String := List.insertionSort strLe l.dedup

/-- Observable side effects of a checkout, in program order: writing the HEAD
    file, writing a branch ref file, deleting a working file, writing a
    working file, creating a directory, clearing the staging index. -/
inductive Ev where
  | writeHead (s : String)
  | setBranch (name hash : String)
  | deleteFile (p : String)
  | writeFile (p : String) (content : String)
  | makeDir (p : String)
  | clearIndex
deriving DecidableEq, Repr

/-- Joining a repository-relative directory with an entry name. -/
def joinPath (dir name : String) : String :=
  if dir = "" then name else dir ++ "/" ++ name

mutual
/-- VersionControl.restore_tree: materialize each entry of a stored tree
    into the working directory; none models a raised exception (missing
    object or unparsable tree payload), which checkout does not catch. -/
def restore_tree (st : Store) (fuel : Nat) (h dir : String)
    (wd : List (String × String)) : Option (List (String × String) × List Ev) :=
  match fuel with
  | 0 => none
  | fuel2 + 1 =>
    match alookup st h with
    | none => none
    | some o =>
      match parseTreeEntries o.content with
      | none => none
      | some es => restoreEntries st fuel2 es dir wd
termination_by (fuel, 0, 0)

/-- The entry loop of restore_tree: blob entries are written to their path,
    subtree entries create the directory and recurse. -/
def restoreEntries (st : Store) (fuel : Nat) (es : List Entry) (dir : String)
    (wd : List (String × String)) : Option (List (String × String) × List Ev) :=
  match es with
  | [] => some (wd, [])
  | (mode, name, hsh) :: rest =>
    if strStartsWith mode "100" then
      match alookup st hsh with
      | none => none
      | some bo =>
        match restoreEntries st fuel rest dir (assocSet wd (joinPath dir name) bo.content) with
        | none => none
        | some (wd2, evs) =>
          some (wd2, Ev.writeFile (joinPath dir name) bo.content :: evs)
    else if strStartsWith mode "400" then
      match restore_tree st fuel hsh (joinPath dir name) wd with
      | none => none
      | some (wd1, evs1) =>
        match restoreEntries st fuel rest dir wd1 with
        | none => none
        | some (wd2, evs2) => some (wd2, Ev.makeDir (joinPath dir name) :: (evs1 ++ evs2))
    else restoreEntries st fuel rest dir wd
termination_by (fuel, 1, sizeOf es)
end

/-- One deletion step of restore_working_directory: unlink the path if a file
    is there, recording the event. -/
def deleteStep (acc : List (String × String) × List Ev) (p1 : String) :
    List (String × String) × List Ev :=
  if (alookup acc.1 p1).isSome then
    (acc.1.filter (fun kv => kv.1 != p1), acc.2 ++ [Ev.deleteFile p1])
  else acc

/-- VersionControl.restore_working_directory: nothing happens when the target
    branch has no commit; otherwise delete the files to clear in sorted order,
    materialize the target tree when the commit records one, and clear the
    staging index. -/
def restore_working_directory (fuel : Nat) (r : Repo) (branch : String)
    (files_to_clear : List String) : Option (Repo × List Ev) :=
  match pyTruthy (get_branch_commit r branch) with
  | none => some (r, [])
  | some tch =>
    match (sortedNubStr files_to_clear).foldl deleteStep (r.workdir, []) with
    | (wd1, delEvs) =>
      match alookup r.objects tch with
      | none => none
      | some o =>
        match parseCommit o.content with
        | none => none
        | some c =>
          match c.tree_hash with
          | some th =>
            if th ≠ "" then
              match restore_tree r.objects fuel th "" wd1 with
              | none => none
              | some (wd2, evs2) =>
                some ({ r with workdir := wd2, index := [] },
                  delEvs ++ evs2 ++ [Ev.clearIndex])
            else some ({ r with workdir := wd1, index := [] }, delEvs ++ [Ev.clearIndex])
          | none => some ({ r with workdir := wd1, index := [] }, delEvs ++ [Ev.clearIndex])

/-- The files_to_clear computation at the top of VersionControl.checkout: the
    file set of the tree of the previously checked-out commit; every exception
    inside the try block is caught and yields the empty set. -/
def checkoutFilesToClear (fuel : Nat) (r : Repo) : List String :=
  match pyTruthy (get_branch_commit r (get_current_branch r)) with
  | none => []
  | some pch =>
    match alookup r.objects pch with
    | none => []
    | some o =>
      match parseCommit o.content with
      | none => []
      | some pc =>
        match pc.tree_hash with
        | none => []
        | some th => if th = "" then [] else getFilesFromTree r.objects fuel th ""

/-- Outcome reported by checkout. -/
inductive CoMsg where
  | switched
  | notFound
  | noCommits
deriving DecidableEq, Repr

/-- The tail of VersionControl.checkout after branch resolution: write the
    HEAD file, then restore the working directory. -/
def checkoutSwitch (fuel : Nat) (r : Repo) (branch : String) (ftc : List String)
    (pre : List Ev) : Option (Repo × List Ev × CoMsg) :=
  match restore_working_directory fuel
      { r with headRef := some ("ref: refs/heads/" ++ branch ++ "\n") } branch ftc with
  | none => none
  | some (r2, evs) =>
    some (r2, pre ++ Ev.writeHead ("ref: refs/heads/" ++ branch ++ "\n") :: evs,
      CoMsg.switched)

/-- VersionControl.checkout: compute the previous commit's files, resolve the
    target branch (creating it at the previous commit with the create flag),
    then write HEAD and restore the working directory. -/
def checkoutCmd (fuel : Nat) (r : Repo) (branch : String) (create : Bool) :
    Option (Repo × List Ev × CoMsg) :=
  let ftc := checkoutFilesToClear fuel r
  if (alookup r.heads branch).isSome then checkoutSwitch fuel r branch ftc []
  else
    if create then
      match pyTruthy (get_branch_commit r (get_current_branch r)) with
      | some h =>
        checkoutSwitch fuel (set_branch_commit r branch h) branch ftc
          [Ev.setBranch branch h]
      | none => some (r, [], CoMsg.noCommits)
    else some (r, [], CoMsg.notFound)

/-- Parent commit content with no tree line, for the checkout trace example. -/
def c3commitContent : String := "author a 1 +0000\ncommitter b 1 +0000\n\nm"

/-- Concrete repository with branches master (checked out) and dev pointing at
    a commit with no tree, and one staged file. -/
def c3repo : Repo :=
  { objects := [("h", ⟨"commit", c3commitContent⟩)]
    heads := [("master", "h\n"), ("dev", "h\n")]
    headRef := some "ref: refs/heads/master"
    index := [("f", "x")]
    workdir := [] }

/-- Insertion into a key-sorted association list: replace an equal key, place
    before a greater key, recurse past a smaller key.  Proof-side canonical
    form of the insertion-ordered dicts built by create_tree_from_index. -/
def sortedInsert {α : Type} : List (String × α) → String → α → List (String × α)
  | [], k, v => [(k, v)]
  | (k0, v0) :: rest, k, v =>
    match cmpStr k k0 with
    | Ordering.eq => (k, v) :: rest
    | Ordering.lt => (k, v) :: (k0, v0) :: rest
    | Ordering.gt => (k0, v0) :: sortedInsert rest k v

mutual
/-- Canonical form of a nested dict value: every dict level key-sorted. -/
def canonV : PVal → PVal
  | PVal.str h => PVal.str h
  | PVal.dict d => PVal.dict (canonD d)
termination_by p => sizeOf p

/-- Canonical form of a nested dict: sort every level by key. -/
def canonD : List (String × PVal) → List (String × PVal)
  | [] => []
  | (k, v) :: rest => sortedInsert (canonD rest) k (canonV v)
termination_by l => sizeOf l
end

/-- The canonical-side counterpart of insertParts. -/
def cInsertParts : List (String × PVal) → List String → String → Option (List (String × PVal))
  | d, [last], h => some (sortedInsert d last (PVal.str h))
  | d, p :: q :: rest, h =>
    match alookup d p with
    | none =>
      match cInsertParts [] (q :: rest) h with
      | none => none
      | some sub => some (sortedInsert d p (PVal.dict sub))
    | some (PVal.dict sub) =>
      match cInsertParts sub (q :: rest) h with
      | none => none
      | some sub2 => some (sortedInsert d p (PVal.dict sub2))
    | some (PVal.str _) => none
  | _, [], _ => none

/-- The canonical-side counterpart of buildStep. -/
def cStep (s : Option (List (String × PVal) × List (String × PVal)))
    (kv : String × String) : Option (List (String × PVal) × List (String × PVal)) :=
  match s with
  | none => none
  | some (cf, cd) =>
    match strSplit kv.1 '/' with
    | [single] => some (sortedInsert cf single (PVal.str kv.2), cd)
    | parts =>
      match cInsertParts cd parts kv.2 with
      | none => none
      | some cd2 => some (cf, cd2)

/-- The canonical-side counterpart of buildNested. -/
def cState (l : List (String × String)) :
    Option (List (String × PVal) × List (String × PVal)) :=
  l.foldl cStep (some ([], []))

/-- Canonical form of the flat files dict. -/
def canonFiles (f : List (String × String)) : List (String × PVal) :=
  canonD (f.map (fun kv => (kv.1, PVal.str kv.2)))

/-- Canonical image of an intermediate partitioning state. -/
def canonPair (s : Option (List (String × String) × List (String × PVal))) :
    Option (List (String × PVal) × List (String × PVal)) :=
  match s with
  | none => none
  | some (f, d) => some (canonFiles f, canonD d)

/-- What one canonical insertion does at a single key: the new value bound to
    the head component, as a function of the value currently bound there. -/
def cIns1 (cur : Option PVal) (t : List String) (h : String) : Option PVal :=
  match t with
  | [] => some (PVal.str h)
  | _ :: _ =>
    match cur with
    | some (PVal.str _) => none
    | some (PVal.dict sub) => (cInsertParts sub t h).map PVal.dict
    | none => (cInsertParts [] t h).map PVal.dict

mutual
/-- The root hash create_tree_recursive computes for a dict, independent of
    the store it threads (store_object always returns the object's hash). -/
def dictHash (sha1 : String → String) (d : List (String × PVal)) : String :=
  vcHash sha1 (TreeObj (dictEntries sha1 d))
termination_by (sizeOf d, 1)

/-- The entries create_tree_recursive collects for a dict. -/
def dictEntries (sha1 : String → String) : List (String × PVal) → List Entry
  | [] => []
  | (n, PVal.str h) :: rest => ("100644", n, h) :: dictEntries sha1 rest
  | (n, PVal.dict sub) :: rest => ("40000", n, dictHash sha1 sub) :: dictEntries sha1 rest
termination_by l => (sizeOf l, 0)
end

/-- The entry contributed by one dict binding. -/
def entryOfPair (sha1 : String → String) (kv : String × PVal) : Entry :=
  match kv.2 with
  | PVal.str h => ("100644", kv.1, h)
  | PVal.dict sub => ("40000", kv.1, dictHash sha1 sub)

/-- Well-formed nested dict values: distinct keys at every level. -/
inductive VOK : PVal → Prop where
  | str (h : String) : VOK (PVal.str h)
  | dict (d : List (String × PVal)) : (d.map Prod.fst).Nodup →
      (∀ kv ∈ d, VOK kv.2) → VOK (PVal.dict d)

/-- The path components Python uses to bucket the index. -/
def pathParts (p : String) : List String := strSplit p '/'

/-- Two paths that denote a file each in a real working tree: neither list of
    components is a prefix of the other (this also forces the paths to be
    distinct). -/
def NoConflict (a b : String) : Prop :=
  ¬ (pathParts a <+: pathParts b) ∧ ¬ (pathParts b <+: pathParts a)

/-- A staging index that can come from a real working tree: pairwise
    non-conflicting paths. -/
def WfIndex (l : List (String × String)) : Prop :=
  l.Pairwise (fun x y => NoConflict x.1 y.1)

/-- The root tree hash create_tree_from_index returns, as a pure function of
    the staging index. -/
def indexTreeHash (sha1 : String → String) (l : List (String × String)) : Option String :=
  if l.isEmpty then some (vcHash sha1 (TreeObj []))
  else (buildNested l).map (fun fd => dictHash sha1 (mergeRoot fd.1 fd.2))

/-- Conflicting index: a/b is both a file and a directory of a/b/c. -/
def c2repoA : Repo :=
  { objects := [], heads := [], headRef := none
    index := [("a/b", "h1"), ("a/b/c", "h2")], workdir := [] }

/-- The same conflicting pairs inserted in the opposite order. -/
def c2repoB : Repo :=
  { objects := [], heads := [], headRef := none
    index := [("a/b/c", "h2"), ("a/b", "h1")], workdir := [] }

/-- A well-formed two-file index. -/
def c2repoC : Repo :=
  { objects := [], heads := [], headRef := none
    index := [("a", "x"), ("d/c", "y")], workdir := [] }

/-- The same well-formed index inserted in the opposite order. -/
def c2repoD : Repo :=
  { objects := [], heads := [], headRef := none
    index := [("d/c", "y"), ("a", "x")], workdir := [] }

/-- Concrete repository with two branches pointing at different commits,
    master checked out. -/
def c6repo : Repo :=
  { objects := []
    heads := [("feature", "h1\n"), ("master", "h2\n")]
    headRef := some "ref: refs/heads/master"
    index := []
    workdir := [] }

end VCS

namespace VCS

theorem alookup_eq_none_countKey {α : Type} (st : List (String × α)) (h : String)
    (hn : alookup st h = none) : countKey st h = 0 := by
  induction st with
  | nil => rfl
  | cons kv rest ih =>
    obtain ⟨k, v⟩ := kv
    simp only [alookup] at hn
    by_cases hk : k = h
    · rw [if_pos hk] at hn
      exact absurd hn (by simp)
    · rw [if_neg hk] at hn
      have hb : (k == h) = false := beq_false_of_ne hk
      simp only [countKey, List.filter_cons, hb]
      exact ih hn

theorem countKey_cons_self {α : Type} (st : List (String × α)) (h : String) (o : α) :
    countKey ((h, o) :: st) h = countKey st h + 1 := by
  simp [countKey, List.filter_cons]

/-- C1: storing a blob of the same byte payload twice returns the same hash both
    times, the second call is a no-op on the object store, the hash is a function
    of the object type and content alone, and when the blob was not yet stored
    the store afterwards holds exactly one object under that hash (and exactly
    one new object in total). -/
theorem store_blob_twice (sha1 : String → String) (st : Store) (C : String) :
    (store_object sha1 (store_object sha1 st (Blob C)).1 (Blob C)).2
        = (store_object sha1 st (Blob C)).2
    ∧ (store_object sha1 (store_object sha1 st (Blob C)).1 (Blob C)).1
        = (store_object sha1 st (Blob C)).1
    ∧ (store_object sha1 st (Blob C)).2 = vcHash sha1 ⟨"blob", C⟩
    ∧ (alookup st (store_object sha1 st (Blob C)).2 = none →
        countKey (store_object sha1 st (Blob C)).1 (store_object sha1 st (Blob C)).2 = 1
        ∧ (store_object sha1 st (Blob C)).1.length = st.length + 1) := by
  cases hl : alookup st (vcHash sha1 (Blob C)) with
  | some o =>
    have h1 : store_object sha1 st (Blob C) = (st, vcHash sha1 (Blob C)) := by
      simp [store_object, hl]
    rw [h1]
    refine ⟨by simp [h1], by simp [h1], rfl, ?_⟩
    intro hnone
    simp only at hnone
    rw [hl] at hnone
    exact absurd hnone (by simp)
  | none =>
    have h1 : store_object sha1 st (Blob C)
        = ((vcHash sha1 (Blob C), Blob C) :: st, vcHash sha1 (Blob C)) := by
      simp [store_object, hl]
    have h2 : store_object sha1 ((vcHash sha1 (Blob C), Blob C) :: st) (Blob C)
        = ((vcHash sha1 (Blob C), Blob C) :: st, vcHash sha1 (Blob C)) := by
      simp [store_object, alookup]
    rw [h1]
    refine ⟨by simp [h2], by simp [h2], rfl, ?_⟩
    intro _
    refine ⟨?_, by simp⟩
    simp only
    rw [countKey_cons_self, alookup_eq_none_countKey st _ hl]

/-- C1 witness: concrete evaluation with the identity digest, payload "hi" and
    an empty store. -/
theorem store_blob_twice_witness :
    alookup ([] : Store) (store_object id [] (Blob "hi")).2 = none
    ∧ countKey (store_object id [] (Blob "hi")).1 (store_object id [] (Blob "hi")).2 = 1
    ∧ (store_object id [] (Blob "hi")).1.length = ([] : Store).length + 1 :=
  ⟨rfl, ((store_blob_twice id [] "hi").2.2.2 rfl).1,
    ((store_blob_twice id [] "hi").2.2.2 rfl).2⟩

theorem Ordering_lt_then (o : Ordering) : Ordering.lt.then o = Ordering.lt := rfl

theorem Ordering_gt_then (o : Ordering) : Ordering.gt.then o = Ordering.gt := rfl

theorem Ordering_eq_then (o : Ordering) : Ordering.eq.then o = o := rfl

theorem cmpChars_eq_iff : ∀ as bs : List Char, cmpChars as bs = Ordering.eq ↔ as = bs := by
  intro as
  induction as with
  | nil => intro bs; cases bs <;> simp [cmpChars]
  | cons a as ih =>
    intro bs
    cases bs with
    | nil => simp [cmpChars]
    | cons b bs =>
      simp only [cmpChars]
      by_cases h1 : a.toNat < b.toNat
      · rw [if_pos h1]
        constructor
        · intro h; exact absurd h (by simp)
        · intro h
          injection h with hab _
          subst hab
          exact absurd h1 (lt_irrefl _)
      · by_cases h2 : b.toNat < a.toNat
        · rw [if_neg h1, if_pos h2]
          constructor
          · intro h; exact absurd h (by simp)
          · intro h
            injection h with hab _
            subst hab
            exact absurd h2 (lt_irrefl _)
        · have hab : a = b := Char.ext (UInt32.toNat.inj (show a.toNat = b.toNat by omega))
          subst hab
          rw [if_neg h1, if_neg h2, ih bs]
          constructor
          · intro h; rw [h]
          · intro h
            simpa using h

theorem cmpChars_swap : ∀ as bs : List Char, (cmpChars as bs).swap = cmpChars bs as := by
  intro as
  induction as with
  | nil => intro bs; cases bs <;> simp [cmpChars, Ordering.swap]
  | cons a as ih =>
    intro bs
    cases bs with
    | nil => simp [cmpChars, Ordering.swap]
    | cons b bs =>
      by_cases h1 : a.toNat < b.toNat
      · have h2 : ¬ b.toNat < a.toNat := by omega
        simp [cmpChars, h1, h2, Ordering.swap]
      · by_cases h2 : b.toNat < a.toNat
        · simp [cmpChars, h1, h2, Ordering.swap]
        · simp [cmpChars, h1, h2, ih bs]

theorem cmpChars_lt_trans : ∀ as bs cs : List Char, cmpChars as bs = Ordering.lt →
    cmpChars bs cs = Ordering.lt → cmpChars as cs = Ordering.lt := by
  intro as
  induction as with
  | nil =>
    intro bs cs h1 h2
    cases bs with
    | nil => exact h2
    | cons b bs =>
      cases cs with
      | nil => simp [cmpChars] at h2
      | cons c cs => simp [cmpChars]
  | cons a as ih =>
    intro bs cs h1 h2
    cases bs with
    | nil => simp [cmpChars] at h1
    | cons b bs =>
      cases cs with
      | nil => simp [cmpChars] at h2
      | cons c cs =>
        simp only [cmpChars] at h1 h2 ⊢
        by_cases hab : a.toNat < b.toNat
        · by_cases hbc : b.toNat < c.toNat
          · rw [if_pos (by omega)]
          · by_cases hcb : c.toNat < b.toNat
            · rw [if_neg hbc, if_pos hcb] at h2
              simp at h2
            · rw [if_pos (by omega)]
        · by_cases hba : b.toNat < a.toNat
          · rw [if_neg hab, if_pos hba] at h1
            simp at h1
          · rw [if_neg hab, if_neg hba] at h1
            by_cases hbc : b.toNat < c.toNat
            · rw [if_pos (by omega)]
            · by_cases hcb : c.toNat < b.toNat
              · rw [if_neg hbc, if_pos hcb] at h2
                simp at h2
              · rw [if_neg hbc, if_neg hcb] at h2
                rw [if_neg (by omega), if_neg (by omega)]
                exact ih bs cs h1 h2

theorem cmpStr_eq_iff (a b : String) : cmpStr a b = Ordering.eq ↔ a = b := by
  rw [cmpStr, cmpChars_eq_iff]
  exact ⟨fun h => String.ext h, fun h => by rw [h]⟩

theorem cmpStr_swap (a b : String) : (cmpStr a b).swap = cmpStr b a :=
  cmpChars_swap a.data b.data

theorem cmpStr_lt_trans {a b c : String} (h1 : cmpStr a b = Ordering.lt)
    (h2 : cmpStr b c = Ordering.lt) : cmpStr a c = Ordering.lt :=
  cmpChars_lt_trans a.data b.data c.data h1 h2

theorem Ordering_swap_then (a b : Ordering) : (a.then b).swap = a.swap.then b.swap := by
  cases a <;> simp [Ordering.then, Ordering.swap]

theorem cmpEntry_swap (x y : Entry) : (cmpEntry x y).swap = cmpEntry y x := by
  unfold cmpEntry
  rw [Ordering_swap_then, Ordering_swap_then, cmpStr_swap, cmpStr_swap, cmpStr_swap]

theorem cmpEntry_eq_iff (x y : Entry) : cmpEntry x y = Ordering.eq ↔ x = y := by
  obtain ⟨x1, x2, x3⟩ := x
  obtain ⟨y1, y2, y3⟩ := y
  show (cmpStr x1 y1).then ((cmpStr x2 y2).then (cmpStr x3 y3)) = Ordering.eq ↔ _
  cases e1 : cmpStr x1 y1 with
  | lt =>
    rw [Ordering_lt_then]
    constructor
    · intro h; exact absurd h (by simp)
    · intro h
      cases h
      rw [(cmpStr_eq_iff x1 x1).mpr rfl] at e1
      exact absurd e1 (by simp)
  | gt =>
    rw [Ordering_gt_then]
    constructor
    · intro h; exact absurd h (by simp)
    · intro h
      cases h
      rw [(cmpStr_eq_iff x1 x1).mpr rfl] at e1
      exact absurd e1 (by simp)
  | eq =>
    obtain rfl : x1 = y1 := (cmpStr_eq_iff _ _).mp e1
    rw [Ordering_eq_then]
    cases e2 : cmpStr x2 y2 with
    | lt =>
      rw [Ordering_lt_then]
      constructor
      · intro h; exact absurd h (by simp)
      · intro h
        cases h
        rw [(cmpStr_eq_iff x2 x2).mpr rfl] at e2
        exact absurd e2 (by simp)
    | gt =>
      rw [Ordering_gt_then]
      constructor
      · intro h; exact absurd h (by simp)
      · intro h
        cases h
        rw [(cmpStr_eq_iff x2 x2).mpr rfl] at e2
        exact absurd e2 (by simp)
    | eq =>
      obtain rfl : x2 = y2 := (cmpStr_eq_iff _ _).mp e2
      rw [Ordering_eq_then]
      constructor
      · intro h
        obtain rfl : x3 = y3 := (cmpStr_eq_iff _ _).mp h
        rfl
      · intro h
        cases h
        exact (cmpStr_eq_iff x3 x3).mpr rfl

theorem cmpEntry_lt_trans {x y z : Entry} (h1 : cmpEntry x y = Ordering.lt)
    (h2 : cmpEntry y z = Ordering.lt) : cmpEntry x z = Ordering.lt := by
  obtain ⟨x1, x2, x3⟩ := x
  obtain ⟨y1, y2, y3⟩ := y
  obtain ⟨z1, z2, z3⟩ := z
  replace h1 : (cmpStr x1 y1).then ((cmpStr x2 y2).then (cmpStr x3 y3)) = Ordering.lt := h1
  replace h2 : (cmpStr y1 z1).then ((cmpStr y2 z2).then (cmpStr y3 z3)) = Ordering.lt := h2
  show (cmpStr x1 z1).then ((cmpStr x2 z2).then (cmpStr x3 z3)) = Ordering.lt
  cases e1 : cmpStr x1 y1 with
  | gt => rw [e1, Ordering_gt_then] at h1; simp at h1
  | lt =>
    cases e2 : cmpStr y1 z1 with
    | gt => rw [e2, Ordering_gt_then] at h2; simp at h2
    | lt => rw [cmpStr_lt_trans e1 e2, Ordering_lt_then]
    | eq =>
      obtain rfl : y1 = z1 := (cmpStr_eq_iff _ _).mp e2
      rw [e1, Ordering_lt_then]
  | eq =>
    obtain rfl : x1 = y1 := (cmpStr_eq_iff _ _).mp e1
    rw [e1, Ordering_eq_then] at h1
    cases e2 : cmpStr x1 z1 with
    | gt => rw [e2, Ordering_gt_then] at h2; simp at h2
    | lt => rw [Ordering_lt_then]
    | eq =>
      rw [e2, Ordering_eq_then] at h2
      rw [Ordering_eq_then]
      cases e3 : cmpStr x2 y2 with
      | gt => rw [e3, Ordering_gt_then] at h1; simp at h1
      | lt =>
        cases e4 : cmpStr y2 z2 with
        | gt => rw [e4, Ordering_gt_then] at h2; simp at h2
        | lt => rw [cmpStr_lt_trans e3 e4, Ordering_lt_then]
        | eq =>
          obtain rfl : y2 = z2 := (cmpStr_eq_iff _ _).mp e4
          rw [e3, Ordering_lt_then]
      | eq =>
        obtain rfl : x2 = y2 := (cmpStr_eq_iff _ _).mp e3
        rw [e3, Ordering_eq_then] at h1
        cases e4 : cmpStr x2 z2 with
        | gt => rw [e4, Ordering_gt_then] at h2; simp at h2
        | lt => rw [Ordering_lt_then]
        | eq =>
          rw [e4, Ordering_eq_then] at h2
          rw [Ordering_eq_then]
          exact cmpStr_lt_trans h1 h2

theorem entryLe_total (x y : Entry) : entryLe x y ∨ entryLe y x := by
  unfold entryLe
  cases h : cmpEntry x y with
  | lt => left; simp
  | eq => left; simp
  | gt =>
    right
    have hs := cmpEntry_swap x y
    rw [h] at hs
    rw [← hs]
    simp [Ordering.swap]

theorem entryLe_trans (x y z : Entry) (h1 : entryLe x y) (h2 : entryLe y z) :
    entryLe x z := by
  unfold entryLe at h1 h2 ⊢
  cases e1 : cmpEntry x y with
  | gt => exact absurd e1 h1
  | eq =>
    obtain rfl : x = y := (cmpEntry_eq_iff x y).mp e1
    exact h2
  | lt =>
    cases e2 : cmpEntry y z with
    | gt => exact absurd e2 h2
    | eq =>
      obtain rfl : y = z := (cmpEntry_eq_iff y z).mp e2
      simp [e1]
    | lt => simp [cmpEntry_lt_trans e1 e2]

theorem entryLe_antisymm (x y : Entry) (h1 : entryLe x y) (h2 : entryLe y x) : x = y := by
  unfold entryLe at h1 h2
  cases e1 : cmpEntry x y with
  | gt => exact absurd e1 h1
  | eq => exact (cmpEntry_eq_iff x y).mp e1
  | lt =>
    have hs := cmpEntry_swap x y
    rw [e1] at hs
    rw [← hs] at h2
    exact (h2 rfl).elim

theorem sortEntries_sorted (es : List Entry) : List.Sorted entryLe (sortEntries es) := by
  haveI : IsTotal Entry entryLe := ⟨entryLe_total⟩
  haveI : IsTrans Entry entryLe := ⟨entryLe_trans⟩
  exact List.sorted_insertionSort entryLe es

theorem entryLe_of_sorted_split (es : List Entry) (l₁ : List Entry) (e₁ : Entry)
    (l₂ : List Entry) (e₂ : Entry) (l₃ : List Entry)
    (hs : sortEntries es = l₁ ++ e₁ :: l₂ ++ e₂ :: l₃) : entryLe e₁ e₂ := by
  have hsorted := sortEntries_sorted es
  rw [hs] at hsorted
  have h3 := (List.pairwise_append.mp hsorted).2.2
  exact h3 e₁ (List.mem_append_right l₁ (List.mem_cons_self e₁ l₂)) e₂
    (List.mem_cons_self e₂ l₃)

/-- C8 (corrected, counterexample): the canonical serialization does not order
    entries by name alone.  For a subtree named a and a regular file named z the
    file entry is serialized first even though a is the lexicographically smaller
    name, because sorted() compares the (mode, name, hash) tuples and the file
    mode string 100644 precedes the subtree mode string 40000. -/
theorem tree_serialization_name_order_fails :
    sortEntries c8entries = [("100644", "z", "0b"), ("40000", "a", "0a")]
    ∧ serializeEntries c8entries = "100644 z\x00\x0b40000 a\x00\x0a"
    ∧ cmpStr "a" "z" = Ordering.lt := by
  refine ⟨by decide, by rfl, by decide⟩

/-- C8 (amended): the canonical serialization lists entries in lexicographic
    order of the whole tuple (mode, name, hash): the serialized sequence is the
    entries sorted so that any entry serialized earlier compares no greater than
    any later one; among entries of equal mode the lexicographically smaller
    name comes first, but every regular-file entry (mode 100644) precedes every
    subtree entry (mode 40000) regardless of names. -/
theorem tree_serialization_sorted_by_tuple (es : List Entry) :
    (sortEntries es).Perm es
    ∧ List.Sorted entryLe (sortEntries es)
    ∧ (∀ l₁ e₁ l₂ e₂ l₃, sortEntries es = l₁ ++ e₁ :: l₂ ++ e₂ :: l₃ →
        (e₁.1 = e₂.1 → cmpStr e₁.2.1 e₂.2.1 ≠ Ordering.gt)
        ∧ ¬(e₁.1 = "40000" ∧ e₂.1 = "100644")) := by
  refine ⟨List.perm_insertionSort entryLe es, sortEntries_sorted es, ?_⟩
  intro l₁ e₁ l₂ e₂ l₃ hs
  have hle : entryLe e₁ e₂ := entryLe_of_sorted_split es l₁ e₁ l₂ e₂ l₃ hs
  obtain ⟨m₁, n₁, h₁⟩ := e₁
  obtain ⟨m₂, n₂, h₂⟩ := e₂
  unfold entryLe cmpEntry at hle
  constructor
  · intro hmode hname
    simp only at hmode hname
    subst hmode
    rw [(cmpStr_eq_iff m₁ m₁).mpr rfl] at hle
    simp only [Ordering.then] at hle
    rw [hname] at hle
    simp [Ordering.then] at hle
  · rintro ⟨hm1, hm2⟩
    simp only at hm1 hm2
    subst hm1
    subst hm2
    rw [show cmpStr "40000" "100644" = Ordering.gt from by decide] at hle
    simp [Ordering.then] at hle

/-- C8 witness: the amended ordering facts evaluated on concrete entries, with
    the decomposition hypothesis discharged on the actual sorted output. -/
theorem tree_serialization_sorted_by_tuple_witness :
    (sortEntries c8entries).Perm c8entries
    ∧ ¬((("100644", "z", "0b") : Entry).1 = "40000"
        ∧ (("40000", "a", "0a") : Entry).1 = "100644") :=
  ⟨(tree_serialization_sorted_by_tuple c8entries).1,
    ((tree_serialization_sorted_by_tuple c8entries).2.2 [] ("100644", "z", "0b") []
      ("40000", "a", "0a") [] (by decide)).2⟩


theorem alookup_assocSet_self {α : Type} (l : List (String × α)) (k : String) (v : α) :
    alookup (assocSet l k v) k = some v := by
  induction l with
  | nil => simp [assocSet, alookup]
  | cons kv rest ih =>
    obtain ⟨k0, v0⟩ := kv
    by_cases hk : k0 = k
    · simp [assocSet, hk, alookup]
    · simp only [assocSet, if_neg hk, alookup]
      exact ih

theorem alookup_assocSet_ne {α : Type} (l : List (String × α)) (k k' : String) (v : α)
    (hne : k ≠ k') : alookup (assocSet l k v) k' = alookup l k' := by
  induction l with
  | nil => simp [assocSet, alookup, hne]
  | cons kv rest ih =>
    obtain ⟨k0, v0⟩ := kv
    by_cases hk : k0 = k
    · subst hk
      simp only [assocSet, if_pos rfl, alookup]
      rw [if_neg hne, if_neg hne]
    · simp only [assocSet, if_neg hk, alookup]
      by_cases hk' : k0 = k'
      · rw [if_pos hk', if_pos hk']
      · rw [if_neg hk', if_neg hk']
        exact ih

/-- C7 (corrected, counterexample): the claimed membership condition (present
    in staged or committed, absent from working) matches neither
    implementation.  Implementation 2 computes the deleted list from the
    staging index alone: with an empty staging index and a committed file a
    absent from the working directory the condition holds, yet status reports
    nothing.  Implementation 1 walks the committed snapshot only and excludes
    staged paths: for a staged-only missing file x the condition holds yet the
    loop reports nothing, and a committed file y that is missing but staged is
    likewise not reported. -/
theorem status_deleted_ignores_committed :
    (¬ (("a" ∈ status_deleted [] []) ↔
        (("a" ∈ ([] : List (String × String)).map Prod.fst
            ∨ "a" ∈ ([("a", "h")] : List (String × String)).map Prod.fst)
          ∧ alookup ([] : List (String × String)) "a" = none)))
    ∧ (¬ (("x" ∈ i1_status_deleted [] ["x"] []) ↔
        (("x" ∈ ([] : List String) ∨ "x" ∈ (["x"] : List String))
          ∧ ¬ "x" ∈ ([] : List String))))
    ∧ i1_status_deleted ["y"] ["y"] [] = [] := by
  refine ⟨?_, ?_, rfl⟩
  · intro h
    have : ("a" : String) ∈ status_deleted [] [] := h.mpr (by simp [alookup])
    simp [status_deleted] at this
  · intro h
    have : ("x" : String) ∈ i1_status_deleted [] ["x"] [] :=
      h.mpr ⟨Or.inr (by simp), by simp⟩
    simp [i1_status_deleted] at this

/-- C7 (amended): implementation 2 places a path in the deleted list if and
    only if the path is present in the staging index and absent from the
    working directory (the committed tree plays no role); implementation 1
    places a path in the deleted list of the not-staged section if and only if
    the path is present in the flattened committed snapshot, absent from the
    working files and not staged. -/
theorem status_deleted_iff (index working_files : List (String × String))
    (snapshot_flat staged_flat working : List String) (p q : String) :
    (p ∈ status_deleted index working_files ↔
      p ∈ index.map Prod.fst ∧ alookup working_files p = none)
    ∧ (q ∈ i1_status_deleted snapshot_flat staged_flat working ↔
        q ∈ snapshot_flat ∧ ¬ q ∈ working ∧ ¬ q ∈ staged_flat) := by
  constructor
  · unfold status_deleted
    rw [List.mem_filter]
    simp [Option.isNone_iff_eq_none]
  · unfold i1_status_deleted
    rw [List.mem_filter]
    simp

/-- C7 witness: concrete evaluation of both amended membership conditions. -/
theorem status_deleted_iff_witness :
    "f" ∈ status_deleted [("f", "h1")] [("g", "h2")]
    ∧ "s" ∈ i1_status_deleted ["s"] ["t"] ["u"] :=
  ⟨(status_deleted_iff [("f", "h1")] [("g", "h2")] ["s"] ["t"] ["u"] "f" "s").1.mpr
      (by decide),
    (status_deleted_iff [("f", "h1")] [("g", "h2")] ["s"] ["t"] ["u"] "f" "s").2.mpr
      (by decide)⟩

/-- C6 (corrected, counterexample): implementation 2 branch silently repoints
    an existing branch: with feature at h1 and master (checked out) at h2, the
    branch command for the existing name feature reports success and moves
    feature to h2 instead of failing with BranchAlreadyExists.  Implementation 1
    refuses existing names but, in a repository with no commits, creates a new
    branch anchored at the empty string instead of failing with NoCommitsYet. -/
theorem branch_create_counterexample :
    get_branch_commit c6repo "feature" = some "h1"
    ∧ branchCmd c6repo "feature" false
        = ({ c6repo with heads := [("feature", "h2\n"), ("master", "h2\n")] },
            BranchMsg.created)
    ∧ get_branch_commit (branchCmd c6repo "feature" false).1 "feature" = some "h2"
    ∧ impl1_branch ⟨"master", "", [("master", "")]⟩ "dev"
        = (⟨"master", "", [("master", ""), ("dev", "")]⟩, I1BranchMsg.created) := by
  exact ⟨rfl, rfl, rfl, rfl⟩

/-- C6 (amended): implementation 2 branch never checks for an existing name:
    whenever the current branch has a (truthy) commit, the command reports
    success and maps the name to that commit, repointing the branch if it
    already existed; with no current commit it reports failure and leaves the
    repository unchanged.  Implementation 1 branch fails when the name exists
    and otherwise creates the ref anchored at current_commit, even when that is
    the empty string because the repository has no commits yet. -/
theorem branch_create_behavior (r : Repo) (name : String) (hname : name ≠ "")
    (h1 : I1Head) :
    (∀ c, pyTruthy (get_branch_commit r (get_current_branch r)) = some c →
        alookup (branchCmd r name false).1.heads name = some (c ++ "\n")
        ∧ (branchCmd r name false).2 = BranchMsg.created)
    ∧ (pyTruthy (get_branch_commit r (get_current_branch r)) = none →
        branchCmd r name false = (r, BranchMsg.noCommits))
    ∧ ((alookup h1.branches name).isSome →
        impl1_branch h1 name = (h1, I1BranchMsg.exists_already))
    ∧ (alookup h1.branches name = none →
        alookup (impl1_branch h1 name).1.branches name = some h1.current_commit
        ∧ (impl1_branch h1 name).2 = I1BranchMsg.created) := by
  refine ⟨?_, ?_, ?_, ?_⟩
  · intro c hc
    have hno : ¬ (false ∧ name ≠ "") := by simp
    simp only [branchCmd, if_neg hno, if_pos hname, hc]
    exact ⟨alookup_assocSet_self r.heads name (c ++ "\n"), trivial⟩
  · intro hc
    have hno : ¬ (false ∧ name ≠ "") := by simp
    simp only [branchCmd, if_neg hno, if_pos hname, hc]
  · intro hp
    simp only [impl1_branch, if_pos hp]
  · intro hp
    have : ¬ (alookup h1.branches name).isSome = true := by simp [hp]
    simp only [impl1_branch, if_neg this]
    exact ⟨alookup_assocSet_self h1.branches name h1.current_commit, trivial⟩

/-- C6 witness: the amended behaviour evaluated on the concrete repository and
    a concrete implementation-1 state, all hypotheses discharged by
    computation. -/
theorem branch_create_behavior_witness :
    ("feature" : String) ≠ ""
    ∧ alookup (branchCmd c6repo "feature" false).1.heads "feature" = some ("h2" ++ "\n")
    ∧ (branchCmd c6repo "feature" false).2 = BranchMsg.created
    ∧ impl1_branch ⟨"m", "", [("feature", "")]⟩ "feature"
        = (⟨"m", "", [("feature", "")]⟩, I1BranchMsg.exists_already) := by
  have h := branch_create_behavior c6repo "feature" (by decide) ⟨"m", "", [("feature", "")]⟩
  refine ⟨by decide, (h.1 "h2" (by decide)).1, (h.1 "h2" (by decide)).2, h.2.2.1 (by decide)⟩


theorem store_object_mem {sha1 : String → String} {st : Store} {o : VCObject}
    {kv : String × VCObject} (hm : kv ∈ (store_object sha1 st o).1) :
    kv ∈ st ∨ kv.2 = o := by
  unfold store_object at hm
  cases hl : alookup st (vcHash sha1 o) with
  | some w => rw [hl] at hm; exact Or.inl hm
  | none =>
    rw [hl] at hm
    rcases List.mem_cons.mp hm with h | h
    · exact Or.inr (by rw [h])
    · exact Or.inl h

theorem entriesFromDict_objects (sha1 : String → String) :
    ∀ n : Nat, ∀ l : List (String × PVal), sizeOf l ≤ n → ∀ st : Store,
      ∀ kv : String × VCObject, kv ∈ (entriesFromDict sha1 st l).1 →
      kv ∈ st ∨ kv.2.obj_type = "tree" := by
  intro n
  induction n with
  | zero =>
    intro l hl
    cases l with
    | nil => intro st kv hm; simp [entriesFromDict] at hm; exact Or.inl hm
    | cons a rest =>
      exfalso
      simp only [List.cons.sizeOf_spec] at hl
      omega
  | succ n ih =>
    intro l hl st kv hm
    match l with
    | [] =>
      simp [entriesFromDict] at hm
      exact Or.inl hm
    | (name, PVal.str h) :: rest =>
      have hr : sizeOf rest ≤ n := by
        simp only [List.cons.sizeOf_spec, Prod.mk.sizeOf_spec] at hl
        omega
      simp only [entriesFromDict] at hm
      exact ih rest hr st kv hm
    | (name, PVal.dict sub) :: rest =>
      have hr : sizeOf rest ≤ n := by
        simp only [List.cons.sizeOf_spec, Prod.mk.sizeOf_spec, PVal.dict.sizeOf_spec] at hl
        omega
      have hsub : sizeOf sub ≤ n := by
        simp only [List.cons.sizeOf_spec, Prod.mk.sizeOf_spec, PVal.dict.sizeOf_spec] at hl
        omega
      simp only [entriesFromDict, treeFromDict] at hm
      have hstep := ih rest hr (store_object sha1 (entriesFromDict sha1 st sub).1
        (TreeObj (entriesFromDict sha1 st sub).2)).1 kv hm
      rcases hstep with h | h
      · rcases store_object_mem h with h2 | h2
        · exact ih sub hsub st kv h2
        · exact Or.inr (by rw [h2]; rfl)
      · exact Or.inr h

theorem treeFromDict_objects (sha1 : String → String) (st : Store)
    (d : List (String × PVal)) (kv : String × VCObject)
    (hm : kv ∈ (treeFromDict sha1 st d).1) : kv ∈ st ∨ kv.2.obj_type = "tree" := by
  simp only [treeFromDict] at hm
  rcases store_object_mem hm with h | h
  · exact entriesFromDict_objects sha1 (sizeOf d) d (le_refl _) st kv h
  · exact Or.inr (by rw [h]; rfl)

theorem create_tree_objects (sha1 : String → String) (r : Repo) (st1 : Store)
    (th : String) (hct : create_tree_from_index sha1 r = some (st1, th)) :
    ∀ kv : String × VCObject, kv ∈ st1 → kv ∈ r.objects ∨ kv.2.obj_type = "tree" := by
  intro kv hm
  unfold create_tree_from_index at hct
  by_cases he : r.index.isEmpty
  · rw [if_pos he] at hct
    have h1 : (store_object sha1 r.objects (TreeObj [])).1 = st1 := by
      have := congrArg (fun x => Option.map Prod.fst x) hct
      simpa using this
    rw [← h1] at hm
    rcases store_object_mem hm with h | h
    · exact Or.inl h
    · exact Or.inr (by rw [h]; rfl)
  · rw [if_neg he] at hct
    cases hb : buildNested r.index with
    | none => rw [hb] at hct; exact absurd hct (by simp)
    | some fd =>
      rw [hb] at hct
      obtain ⟨files, dirs⟩ := fd
      simp only [Option.some.injEq] at hct
      have h1 : (treeFromDict sha1 r.objects (mergeRoot files dirs)).1 = st1 := by
        rw [hct]
      rw [← h1] at hm
      exact treeFromDict_objects sha1 r.objects (mergeRoot files dirs) kv hm

/-- C4: when a parent commit exists and its recorded tree hash equals the tree
    hash newly built from the staging index, commit fails with the
    nothing-to-commit outcome: it returns no commit hash, leaves every branch
    ref and the staging index unchanged, and adds no commit object to the
    object store (the only objects the call may add are tree objects written
    while building the tree). -/
theorem commit_same_tree_nothing (sha1 : String → String) (r : Repo)
    (message author email : String) (now : Int) (st1 : Store) (th p : String)
    (obj : VCObject) (pc : CommitRec)
    (hct : create_tree_from_index sha1 r = some (st1, th))
    (hp : pyTruthy (get_branch_commit r (get_current_branch r)) = some p)
    (hobj : alookup st1 p = some obj)
    (hpc : parseCommit obj.content = some pc)
    (htree : pc.tree_hash = some th) :
    ∃ r', commitCmd sha1 r message author email now = some (r', none)
      ∧ r'.heads = r.heads
      ∧ r'.index = r.index
      ∧ ∀ kv : String × VCObject, kv ∈ r'.objects →
          kv ∈ r.objects ∨ kv.2.obj_type = "tree" := by
  refine ⟨{ r with objects := st1 }, ?_, rfl, rfl, ?_⟩
  · unfold commitCmd
    simp only [hct, hp]
    by_cases he : r.index.isEmpty
    · rw [if_pos he]
    · rw [if_neg he]
      simp only [hobj, hpc]
      rw [if_pos htree]
  · intro kv hm
    exact create_tree_objects sha1 r st1 th hct kv hm

/-- C4 witness: under the constant digest, re-staging the file of the parent
    commit rebuilds the parent's tree hash and commit returns the
    nothing-to-commit outcome with branch refs untouched. -/
theorem commit_same_tree_nothing_witness :
    ∃ r', commitCmd constH c4repo "m2" "a" "b" 7 = some (r', none)
      ∧ r'.heads = c4repo.heads
      ∧ r'.index = c4repo.index
      ∧ ∀ kv : String × VCObject, kv ∈ r'.objects →
          kv ∈ c4repo.objects ∨ kv.2.obj_type = "tree" := by
  exact commit_same_tree_nothing constH c4repo "m2" "a" "b" 7
    (("H", TreeObj [("100644", "a", "x")]) :: c4repo.objects) "H" "P"
    ⟨"commit", c4commitContent⟩ ⟨some "H", [], some "a", some "b", "m", 1⟩
    (by simp [create_tree_from_index, c4repo, buildNested, buildStep, strSplit,
      splitChar, insertParts, mergeRoot, treeFromDict, entriesFromDict,
      store_object, vcHash, constH, alookup, assocSet, List.foldl])
    (by simp [c4repo, get_current_branch, get_branch_commit, pyTruthy, pyStrip,
      strStartsWith, charsStartWith, strDrop, isSpaceChar, alookup])
    (by simp [alookup, c4repo])
    (by decide)
    (by decide)

/-- C5: commit on an empty staging index returns the nothing-to-commit outcome
    in both implementations and never creates a commit object or advances a
    branch ref.  Implementation 2 returns no commit hash with every branch ref
    and the staging index unchanged, and no commit object added to the object
    store (only the empty tree object may be written); implementation 1 returns
    before touching anything, leaving the whole repository state unchanged. -/
theorem commit_empty_index_nothing (sha1 : String → String) (r : Repo) (r1 : I1Repo)
    (dumpsTree : List (String × PVal) → String) (dumpsCommit : I1Commit → String)
    (fuel : Nat) (message author email : String) (now : Int)
    (hempty : r.index = []) (hempty1 : r1.stage = []) :
    (∃ r', commitCmd sha1 r message author email now = some (r', none)
      ∧ r'.heads = r.heads
      ∧ ∀ kv : String × VCObject, kv ∈ r'.objects →
          kv ∈ r.objects ∨ kv.2.obj_type = "tree")
    ∧ impl1_commit sha1 dumpsTree dumpsCommit fuel r1 message author email
        = some (r1, none) := by
  constructor
  · have he : r.index.isEmpty := by rw [hempty]; rfl
    have hct : create_tree_from_index sha1 r
        = some (store_object sha1 r.objects (TreeObj [])) := by
      unfold create_tree_from_index
      rw [if_pos he]
    refine ⟨{ r with objects := (store_object sha1 r.objects (TreeObj [])).1 }, ?_, rfl, ?_⟩
    · unfold commitCmd
      simp only [hct]
      cases hp : pyTruthy (get_branch_commit r (get_current_branch r)) with
      | some p => simp [he]
      | none => simp [he]
    · intro kv hm
      rcases store_object_mem hm with h | h
      · exact Or.inl h
      · exact Or.inr (by rw [h]; rfl)
  · have he1 : r1.stage.isEmpty := by rw [hempty1]; rfl
    unfold impl1_commit
    rw [if_pos he1]

/-- C5 witness: a concrete empty-index implementation-2 repository and a
    concrete empty-stage implementation-1 repository. -/
theorem commit_empty_index_nothing_witness :
    (∃ r', commitCmd constH c5repo "m" "a" "b" 7 = some (r', none)
      ∧ r'.heads = c5repo.heads
      ∧ ∀ kv : String × VCObject, kv ∈ r'.objects →
          kv ∈ c5repo.objects ∨ kv.2.obj_type = "tree")
    ∧ impl1_commit constH (fun _ => "T2") (fun _ => "C2") 5 c5repoI1 "m" "a" "b"
        = some (c5repoI1, none) :=
  commit_empty_index_nothing constH c5repo c5repoI1 (fun _ => "T2") (fun _ => "C2") 5
    "m" "a" "b" 7 rfl rfl

/-- C10: commit on an empty staging index still builds and stores the empty
    tree object before reporting the nothing-to-commit failure: the failing
    call returns the repository with exactly the store produced by storing the
    empty tree, so when the empty tree object was not yet present the object
    store has gained one object on this error path. -/
theorem commit_empty_index_stores_tree (sha1 : String → String) (r : Repo)
    (message author email : String) (now : Int) (hempty : r.index = []) :
    commitCmd sha1 r message author email now
      = some ({ r with objects := (store_object sha1 r.objects (TreeObj [])).1 }, none)
    ∧ (alookup (store_object sha1 r.objects (TreeObj [])).1
        (vcHash sha1 (TreeObj []))).isSome
    ∧ (alookup r.objects (vcHash sha1 (TreeObj [])) = none →
        (store_object sha1 r.objects (TreeObj [])).1.length = r.objects.length + 1
        ∧ alookup (store_object sha1 r.objects (TreeObj [])).1
            (vcHash sha1 (TreeObj [])) = some (TreeObj [])) := by
  have he : r.index.isEmpty := by rw [hempty]; rfl
  refine ⟨?_, ?_, ?_⟩
  · unfold commitCmd create_tree_from_index
    rw [if_pos he]
    cases hp : pyTruthy (get_branch_commit r (get_current_branch r)) with
    | some p => simp [he]
    | none => simp [he]
  · unfold store_object
    cases hl : alookup r.objects (vcHash sha1 (TreeObj [])) with
    | some w => simp [hl]
    | none => simp [alookup]
  · intro hl
    unfold store_object
    rw [hl]
    exact ⟨by simp, by simp [alookup]⟩

/-- C10 witness: with an empty store the failing commit call adds the empty
    tree object. -/
theorem commit_empty_index_stores_tree_witness :
    commitCmd constH c5repo "m" "a" "b" 7
      = some ({ c5repo with
          objects := (store_object constH c5repo.objects (TreeObj [])).1 }, none)
    ∧ (store_object constH c5repo.objects (TreeObj [])).1.length
        = c5repo.objects.length + 1 := by
  have h := commit_empty_index_stores_tree constH c5repo "m" "a" "b" 7 rfl
  exact ⟨h.1, (h.2.2 rfl).1⟩


theorem c9store_wf : wfStore c9store := by
  intro k o c hk hp q hq
  by_cases hkr : "R" = k
  · simp only [c9store, alookup, if_pos hkr] at hk
    cases hk
    rw [show parseCommit
        (VCObject.mk "commit" "tree t\nauthor a 1 +0000\ncommitter b 1 +0000\n\nm").content
        = some c9rec from rfl] at hp
    cases hp
    simp [c9rec] at hq
  · simp [c9store, alookup, if_neg hkr] at hk

/-- C9 (corrected, counterexample): a log walk can reach a commit with no
    parent exactly at the max_count boundary and therefore not stop before
    max_count: with one parentless commit and max_count one, the walk returns
    that commit, its parent list is empty, yet the sequence is not shorter than
    max_count, so stopping before max_count is not equivalent to reaching a
    parentless commit. -/
theorem log_stop_iff_counterexample :
    logWalk c9store 1 (some "R") = some [("R", c9rec)]
    ∧ c9rec.parent_hashes = []
    ∧ ¬ (([("R", c9rec)] : List (String × CommitRec)).length < 1) := by
  exact ⟨rfl, rfl, by decide⟩

/-- C9 (amended): for every start commit hash and bound, a completed log walk
    is a finite sequence of at most max_count commits that starts at the start
    hash and follows parent_hashes[0] from each commit to the next, and it
    stops before reaching max_count only by reaching a commit with no parent
    (so every produced sequence either has exactly max_count entries or ends
    at a parentless commit); reaching a parentless commit exactly at the bound
    also ends the walk, without the count dropping below max_count. -/
theorem log_walk_spec (st : Store) (hwf : wfStore st) :
    ∀ max : Nat, ∀ h : String, ∀ seq : List (String × CommitRec), h ≠ "" →
      logWalk st max (some h) = some seq →
      seq.length ≤ max
      ∧ List.Chain' (fun a b => a.2.parent_hashes.head? = some b.1) seq
      ∧ (0 < max → seq.head?.map Prod.fst = some h)
      ∧ (seq.length < max → ∃ l, seq.getLast? = some l ∧ l.2.parent_hashes = []) := by
  intro max
  induction max with
  | zero =>
    intro h seq hne hw
    rw [show logWalk st 0 (some h) = some [] from rfl] at hw
    cases hw
    exact ⟨by simp, by simp, by simp, by simp⟩
  | succ m ih =>
    intro h seq hne hw
    rw [show logWalk st (m + 1) (some h)
        = if h = "" then some []
          else
            match alookup st h with
            | none => none
            | some o =>
              match parseCommit o.content with
              | none => none
              | some c =>
                match logWalk st m c.parent_hashes.head? with
                | none => none
                | some rest => some ((h, c) :: rest) from rfl] at hw
    rw [if_neg hne] at hw
    cases ho : alookup st h with
    | none => simp only [ho] at hw; exact absurd hw (by simp)
    | some o =>
      simp only [ho] at hw
      cases hc : parseCommit o.content with
      | none => simp only [hc] at hw; exact absurd hw (by simp)
      | some c =>
        simp only [hc] at hw
        cases hr : logWalk st m c.parent_hashes.head? with
        | none => simp only [hr] at hw; exact absurd hw (by simp)
        | some rest =>
          simp only [hr] at hw
          simp only [Option.some.injEq] at hw
          subst hw
          cases hpar : c.parent_hashes with
          | nil =>
            rw [hpar] at hr
            rw [show logWalk st m (List.head? ([] : List String)) = some [] from by
              cases m <;> rfl] at hr
            simp only [Option.some.injEq] at hr
            subst hr
            refine ⟨by simp, by simp, by simp, ?_⟩
            intro _
            exact ⟨(h, c), by simp, by simp [hpar]⟩
          | cons p ps =>
            have hp : p ≠ "" := hwf h o c ho hc p (by rw [hpar]; simp)
            rw [hpar] at hr
            simp only [List.head?] at hr
            obtain ⟨ihlen, ihchain, ihhead, ihstop⟩ := ih p rest hp hr
            have hrestne : rest = [] → m = 0 := by
              intro hnil
              by_contra hm
              have hx := ihhead (Nat.pos_of_ne_zero hm)
              rw [hnil] at hx
              simp at hx
            refine ⟨by simpa using Nat.succ_le_succ ihlen, ?_, by simp, ?_⟩
            · refine List.Chain'.cons' ihchain ?_
              intro y hy
              cases rest with
              | nil => simp at hy
              | cons r rs =>
                have hm : 0 < m := by
                  by_contra hm0
                  have hmz : m = 0 := by omega
                  subst hmz
                  rw [show logWalk st 0 (some p) = some [] from rfl] at hr
                  simp at hr
                have hr1 : r.1 = p := by simpa using ihhead hm
                have hy2 : r = y := by
                  simp only [List.head?_cons, Option.mem_def, Option.some.injEq] at hy
                  exact hy
                subst hy2
                show c.parent_hashes.head? = some r.1
                rw [hpar, hr1]
                rfl
            · intro hlt
              have hlt2 : rest.length < m := by simpa using Nat.lt_of_succ_lt_succ hlt
              have hm : 0 < m := by
                rcases Nat.eq_zero_or_pos m with h0 | h0
                · subst h0
                  omega
                · exact h0
              have hne2 : rest ≠ [] := by
                intro hnil
                have := hrestne hnil
                omega
              obtain ⟨l, hl, hlp⟩ := ihstop hlt2
              refine ⟨l, ?_, hlp⟩
              cases rest with
              | nil => exact absurd rfl hne2
              | cons r rs =>
                rw [List.getLast?_cons_cons]
                exact hl

/-- C9 witness: the amended walk facts evaluated on the one-commit store with
    budget five. -/
theorem log_walk_spec_witness :
    ([("R", c9rec)] : List (String × CommitRec)).length ≤ 5
    ∧ List.Chain' (fun a b => a.2.parent_hashes.head? = some b.1) [("R", c9rec)]
    ∧ ([("R", c9rec)] : List (String × CommitRec)).head?.map Prod.fst = some "R"
    ∧ ∃ l, ([("R", c9rec)] : List (String × CommitRec)).getLast? = some l
        ∧ l.2.parent_hashes = [] := by
  have h := log_walk_spec c9store c9store_wf 5 "R" [("R", c9rec)] (by decide) rfl
  exact ⟨h.1, h.2.1, h.2.2.1 (by decide), h.2.2.2 (by decide)⟩


theorem deleteStep_fold_events (l : List String) :
    ∀ acc : List (String × String) × List Ev,
      (∀ e ∈ acc.2, ∃ p, e = Ev.deleteFile p) →
      ∀ e ∈ (l.foldl deleteStep acc).2, ∃ p, e = Ev.deleteFile p := by
  induction l with
  | nil => intro acc hacc e he; exact hacc e he
  | cons a rest ih =>
    intro acc hacc e he
    rw [List.foldl_cons] at he
    refine ih (deleteStep acc a) ?_ e he
    intro e2 he2
    unfold deleteStep at he2
    by_cases hx : (alookup acc.1 a).isSome
    · rw [if_pos hx] at he2
      simp only [List.mem_append] at he2
      rcases he2 with h2 | h2
      · exact hacc e2 h2
      · exact ⟨a, by simpa using h2⟩
    · rw [if_neg hx] at he2
      exact hacc e2 he2

theorem restore_events (fuel : Nat) :
    (∀ st : Store, ∀ h dir : String, ∀ wd wd2 : List (String × String), ∀ evs : List Ev,
      restore_tree st fuel h dir wd = some (wd2, evs) →
      ∀ e ∈ evs, (∃ p c, e = Ev.writeFile p c) ∨ ∃ p, e = Ev.makeDir p)
    ∧ (∀ st : Store, ∀ es : List Entry, ∀ dir : String,
        ∀ wd wd2 : List (String × String), ∀ evs : List Ev,
      restoreEntries st fuel es dir wd = some (wd2, evs) →
      ∀ e ∈ evs, (∃ p c, e = Ev.writeFile p c) ∨ ∃ p, e = Ev.makeDir p) := by
  induction fuel with
  | zero =>
    have htree : ∀ st : Store, ∀ h dir : String, ∀ wd wd2 : List (String × String),
        ∀ evs : List Ev, restore_tree st 0 h dir wd = some (wd2, evs) →
        ∀ e ∈ evs, (∃ p c, e = Ev.writeFile p c) ∨ ∃ p, e = Ev.makeDir p := by
      intro st h dir wd wd2 evs hr
      rw [show restore_tree st 0 h dir wd = none from by simp [restore_tree]] at hr
      exact absurd hr (by simp)
    refine ⟨htree, ?_⟩
    intro st es
    induction es with
    | nil =>
      intro dir wd wd2 evs hr
      simp only [restoreEntries, Option.some.injEq, Prod.mk.injEq] at hr
      rw [show evs = [] from (hr.2).symm]
      intro e he
      simp at he
    | cons hd rest ih =>
      intro dir wd wd2 evs hr
      obtain ⟨mode, name, hsh⟩ := hd
      simp only [restoreEntries] at hr
      by_cases h1 : strStartsWith mode "100"
      · rw [if_pos h1] at hr
        cases hb : alookup st hsh with
        | none => simp only [hb] at hr; exact absurd hr (by simp)
        | some bo =>
          simp only [hb] at hr
          cases hrest : restoreEntries st 0 rest dir
              (assocSet wd (joinPath dir name) bo.content) with
          | none => simp only [hrest] at hr; exact absurd hr (by simp)
          | some pr =>
            obtain ⟨wd3, evs3⟩ := pr
            simp only [hrest, Option.some.injEq, Prod.mk.injEq] at hr
            intro e he
            rw [← hr.2] at he
            rcases List.mem_cons.mp he with h2 | h2
            · exact Or.inl ⟨joinPath dir name, bo.content, h2⟩
            · exact ih dir _ wd3 evs3 hrest e h2
      · rw [if_neg h1] at hr
        by_cases h2 : strStartsWith mode "400"
        · rw [if_pos h2] at hr
          rw [show restore_tree st 0 hsh (joinPath dir name) wd = none from by
            simp [restore_tree]] at hr
          exact absurd hr (by simp)
        · rw [if_neg h2] at hr
          exact ih dir wd wd2 evs hr
  | succ n ihn =>
    have htree : ∀ st : Store, ∀ h dir : String, ∀ wd wd2 : List (String × String),
        ∀ evs : List Ev, restore_tree st (n + 1) h dir wd = some (wd2, evs) →
        ∀ e ∈ evs, (∃ p c, e = Ev.writeFile p c) ∨ ∃ p, e = Ev.makeDir p := by
      intro st h dir wd wd2 evs hr
      simp only [restore_tree] at hr
      cases ho : alookup st h with
      | none => simp only [ho] at hr; exact absurd hr (by simp)
      | some o =>
        simp only [ho] at hr
        cases hp : parseTreeEntries o.content with
        | none => simp only [hp] at hr; exact absurd hr (by simp)
        | some es =>
          simp only [hp] at hr
          exact ihn.2 st es dir wd wd2 evs hr
    refine ⟨htree, ?_⟩
    intro st es
    induction es with
    | nil =>
      intro dir wd wd2 evs hr
      simp only [restoreEntries, Option.some.injEq, Prod.mk.injEq] at hr
      rw [show evs = [] from (hr.2).symm]
      intro e he
      simp at he
    | cons hd rest ih =>
      intro dir wd wd2 evs hr
      obtain ⟨mode, name, hsh⟩ := hd
      simp only [restoreEntries] at hr
      by_cases h1 : strStartsWith mode "100"
      · rw [if_pos h1] at hr
        cases hb : alookup st hsh with
        | none => simp only [hb] at hr; exact absurd hr (by simp)
        | some bo =>
          simp only [hb] at hr
          cases hrest : restoreEntries st (n + 1) rest dir
              (assocSet wd (joinPath dir name) bo.content) with
          | none => simp only [hrest] at hr; exact absurd hr (by simp)
          | some pr =>
            obtain ⟨wd3, evs3⟩ := pr
            simp only [hrest, Option.some.injEq, Prod.mk.injEq] at hr
            intro e he
            rw [← hr.2] at he
            rcases List.mem_cons.mp he with h2 | h2
            · exact Or.inl ⟨joinPath dir name, bo.content, h2⟩
            · exact ih dir _ wd3 evs3 hrest e h2
      · rw [if_neg h1] at hr
        by_cases h2 : strStartsWith mode "400"
        · rw [if_pos h2] at hr
          cases ht : restore_tree st (n + 1) hsh (joinPath dir name) wd with
          | none => simp only [ht] at hr; exact absurd hr (by simp)
          | some pr1 =>
            obtain ⟨wd1, evs1⟩ := pr1
            simp only [ht] at hr
            cases hrest : restoreEntries st (n + 1) rest dir wd1 with
            | none => simp only [hrest] at hr; exact absurd hr (by simp)
            | some pr2 =>
              obtain ⟨wd3, evs3⟩ := pr2
              simp only [hrest, Option.some.injEq, Prod.mk.injEq] at hr
              intro e he
              rw [← hr.2] at he
              rcases List.mem_cons.mp he with h3 | h3
              · exact Or.inr ⟨joinPath dir name, h3⟩
              · rcases List.mem_append.mp h3 with h4 | h4
                · exact htree st hsh (joinPath dir name) wd wd1 evs1 ht e h4
                · exact ih dir wd1 wd3 evs3 hrest e h4
        · rw [if_neg h2] at hr
          exact ih dir wd wd2 evs hr

theorem restore_working_no_writeHead (fuel : Nat) (r : Repo) (branch : String)
    (ftc : List String) (r2 : Repo) (evs : List Ev)
    (h : restore_working_directory fuel r branch ftc = some (r2, evs)) :
    ∀ e ∈ evs, ∀ x, e ≠ Ev.writeHead x := by
  unfold restore_working_directory at h
  cases ht : pyTruthy (get_branch_commit r branch) with
  | none =>
    simp only [ht, Option.some.injEq, Prod.mk.injEq] at h
    rw [show evs = [] from (h.2).symm]
    intro e he
    simp at he
  | some tch =>
    simp only [ht] at h
    have hdel := deleteStep_fold_events (sortedNubStr ftc) (r.workdir, [])
      (by intro e he; simp at he)
    cases hfd : (sortedNubStr ftc).foldl deleteStep (r.workdir, []) with
    | mk wd1 delEvs =>
      rw [hfd] at h hdel
      simp only at h hdel
      cases ho : alookup r.objects tch with
      | none => simp only [ho] at h; exact absurd h (by simp)
      | some o =>
        simp only [ho] at h
        cases hp : parseCommit o.content with
        | none => simp only [hp] at h; exact absurd h (by simp)
        | some c =>
          simp only [hp] at h
          have hfinish : ∀ extra : List Ev,
              (∀ e ∈ extra, (∃ p c0, e = Ev.writeFile p c0) ∨ ∃ p, e = Ev.makeDir p) →
              evs = delEvs ++ extra ++ [Ev.clearIndex] →
              ∀ e ∈ evs, ∀ x, e ≠ Ev.writeHead x := by
            intro extra hextra hevs e he x
            rw [hevs] at he
            rcases List.mem_append.mp he with h1 | h1
            · rcases List.mem_append.mp h1 with h2 | h2
              · obtain ⟨p, hp2⟩ := hdel e h2
                rw [hp2]
                simp
              · rcases hextra e h2 with ⟨p, c0, h3⟩ | ⟨p, h3⟩ <;> rw [h3] <;> simp
            · rw [show e = Ev.clearIndex from by simpa using h1]
              simp
          cases hth : c.tree_hash with
          | none =>
            simp only [hth, Option.some.injEq, Prod.mk.injEq] at h
            exact hfinish [] (by intro e he; simp at he) (by rw [← h.2]; simp)
          | some th =>
            simp only [hth] at h
            by_cases hne : th ≠ ""
            · rw [if_pos hne] at h
              cases hrt : restore_tree r.objects fuel th "" wd1 with
              | none => simp only [hrt] at h; exact absurd h (by simp)
              | some pr =>
                obtain ⟨wd2, evs2⟩ := pr
                simp only [hrt, Option.some.injEq, Prod.mk.injEq] at h
                exact hfinish evs2
                  ((restore_events fuel).1 r.objects th "" wd1 wd2 evs2 hrt)
                  (by rw [← h.2])
            · rw [if_neg hne] at h
              simp only [Option.some.injEq, Prod.mk.injEq] at h
              exact hfinish [] (by intro e he; simp at he) (by rw [← h.2]; simp)

theorem checkoutSwitch_trace (fuel : Nat) (r : Repo) (branch : String)
    (ftc : List String) (pre : List Ev) (r2 : Repo) (tr : List Ev) (msg : CoMsg)
    (hs : checkoutSwitch fuel r branch ftc pre = some (r2, tr, msg)) :
    ∃ s rest, tr = pre ++ Ev.writeHead s :: rest
      ∧ (∀ e ∈ rest, ∀ x, e ≠ Ev.writeHead x) := by
  unfold checkoutSwitch at hs
  cases hr : restore_working_directory fuel
      { r with headRef := some ("ref: refs/heads/" ++ branch ++ "\n") } branch ftc with
  | none => rw [hr] at hs; exact absurd hs (by simp)
  | some pr =>
    obtain ⟨r3, evs⟩ := pr
    rw [hr] at hs
    simp only [Option.some.injEq, Prod.mk.injEq] at hs
    refine ⟨"ref: refs/heads/" ++ branch ++ "\n", evs, by rw [← hs.2.1], ?_⟩
    exact restore_working_no_writeHead fuel _ branch ftc r3 evs hr

/-- C3 (corrected, counterexample): checkout does not update HEAD last.  On a
    repository where both branches point at a commit with no tree, checking
    out dev produces the trace HEAD-write first, staging-index clear second:
    the index is cleared, and any file deletions or materializations would
    happen, only after HEAD already references the destination. -/
theorem checkout_head_not_last :
    (checkoutCmd 9 c3repo "dev" false).map (fun x => x.2.1)
      = some ([] ++ Ev.writeHead "ref: refs/heads/dev\n" :: [Ev.clearIndex]) := by
  rfl

/-- C3 (amended): checkout writes HEAD before the working-directory work, not
    after it: every completed checkout either fails resolution with an empty
    trace, or its trace is a (possibly empty) prefix of branch-ref creation
    events followed by the HEAD write and then all remaining effects, so old
    files are deleted, the destination tree is materialized and the staging
    index is cleared only after HEAD already references the destination. -/
theorem checkout_writes_head_first (fuel : Nat) (r : Repo) (branch : String)
    (create : Bool) (r2 : Repo) (tr : List Ev) (msg : CoMsg)
    (hc : checkoutCmd fuel r branch create = some (r2, tr, msg)) :
    (tr = [] ∧ (msg = CoMsg.notFound ∨ msg = CoMsg.noCommits))
    ∨ ∃ pre s rest, tr = pre ++ Ev.writeHead s :: rest
        ∧ (∀ e ∈ pre, ∃ n hsh, e = Ev.setBranch n hsh)
        ∧ (∀ e ∈ rest, ∀ x, e ≠ Ev.writeHead x) := by
  unfold checkoutCmd at hc
  by_cases hb : (alookup r.heads branch).isSome
  · rw [if_pos hb] at hc
    obtain ⟨s, rest, htr, hrest⟩ := checkoutSwitch_trace fuel r branch
      (checkoutFilesToClear fuel r) [] r2 tr msg hc
    exact Or.inr ⟨[], s, rest, htr, by intro e he; simp at he, hrest⟩
  · rw [if_neg hb] at hc
    by_cases hcr : create
    · rw [if_pos hcr] at hc
      cases hp : pyTruthy (get_branch_commit r (get_current_branch r)) with
      | some hsh =>
        rw [hp] at hc
        obtain ⟨s, rest, htr, hrest⟩ := checkoutSwitch_trace fuel
          (set_branch_commit r branch hsh) branch (checkoutFilesToClear fuel r)
          [Ev.setBranch branch hsh] r2 tr msg hc
        refine Or.inr ⟨[Ev.setBranch branch hsh], s, rest, htr, ?_, hrest⟩
        intro e he
        exact ⟨branch, hsh, by simpa using he⟩
      | none =>
        rw [hp] at hc
        simp only [Option.some.injEq, Prod.mk.injEq] at hc
        exact Or.inl ⟨by rw [← hc.2.1], Or.inr (by rw [← hc.2.2])⟩
    · rw [if_neg hcr] at hc
      simp only [Option.some.injEq, Prod.mk.injEq] at hc
      exact Or.inl ⟨by rw [← hc.2.1], Or.inl (by rw [← hc.2.2])⟩

/-- C3 witness: the amended shape evaluated on the concrete checkout of the
    dev branch. -/
theorem checkout_writes_head_first_witness :
    (([Ev.writeHead "ref: refs/heads/dev\n", Ev.clearIndex] : List Ev) = []
        ∧ (CoMsg.switched = CoMsg.notFound ∨ CoMsg.switched = CoMsg.noCommits))
    ∨ ∃ pre s rest,
        ([Ev.writeHead "ref: refs/heads/dev\n", Ev.clearIndex] : List Ev)
          = pre ++ Ev.writeHead s :: rest
        ∧ (∀ e ∈ pre, ∃ n hsh, e = Ev.setBranch n hsh)
        ∧ (∀ e ∈ rest, ∀ x, e ≠ Ev.writeHead x) := by
  exact checkout_writes_head_first 9 c3repo "dev" false
    { c3repo with headRef := some "ref: refs/heads/dev\n", index := [] }
    [Ev.writeHead "ref: refs/heads/dev\n", Ev.clearIndex] CoMsg.switched rfl

theorem cmpStr_gt_iff (a b : String) :
    cmpStr a b = Ordering.gt ↔ cmpStr b a = Ordering.lt := by
  constructor
  · intro h
    have hs := cmpStr_swap a b
    rw [h] at hs
    exact hs.symm
  · intro h
    have hs := cmpStr_swap b a
    rw [h] at hs
    exact hs.symm

theorem cmpStr_ne_of_lt {a b : String} (h : cmpStr a b = Ordering.lt) : a ≠ b := by
  intro he
  rw [he, (cmpStr_eq_iff b b).mpr rfl] at h
  exact Ordering.noConfusion h

theorem cmpStr_ne_of_gt {a b : String} (h : cmpStr a b = Ordering.gt) : a ≠ b := by
  intro he
  rw [he, (cmpStr_eq_iff b b).mpr rfl] at h
  exact Ordering.noConfusion h

theorem cmpStr_self (a : String) : cmpStr a a = Ordering.eq := (cmpStr_eq_iff a a).mpr rfl

theorem alookup_sortedInsert_self {α : Type} (m : List (String × α)) (k : String) (v : α) :
    alookup (sortedInsert m k v) k = some v := by
  induction m with
  | nil => simp [sortedInsert, alookup]
  | cons kv rest ih =>
    obtain ⟨k0, v0⟩ := kv
    cases e : cmpStr k k0 with
    | eq => simp [sortedInsert, e, alookup]
    | lt => simp [sortedInsert, e, alookup]
    | gt =>
      have hne : ¬ (k0 = k) := fun he => cmpStr_ne_of_gt e he.symm
      simp [sortedInsert, e, alookup, hne, ih]

theorem alookup_sortedInsert_ne {α : Type} (m : List (String × α)) (k k' : String) (v : α)
    (hne : k' ≠ k) : alookup (sortedInsert m k v) k' = alookup m k' := by
  have hks : ¬ (k = k') := fun he => hne he.symm
  induction m with
  | nil => simp [sortedInsert, alookup, hks]
  | cons kv rest ih =>
    obtain ⟨k0, v0⟩ := kv
    cases e : cmpStr k k0 with
    | eq =>
      have he : k = k0 := (cmpStr_eq_iff k k0).mp e
      subst he
      simp [sortedInsert, e, alookup, hks]
    | lt => simp [sortedInsert, e, alookup, hks]
    | gt =>
      by_cases h0 : k0 = k'
      · subst h0
        simp [sortedInsert, e, alookup]
      · simp [sortedInsert, e, alookup, h0, ih]

theorem sortedInsert_overwrite {α : Type} (m : List (String × α)) (k : String) (v w : α) :
    sortedInsert (sortedInsert m k v) k w = sortedInsert m k w := by
  induction m with
  | nil => simp [sortedInsert, cmpStr_self]
  | cons kv rest ih =>
    obtain ⟨k0, v0⟩ := kv
    cases e : cmpStr k k0 with
    | eq => simp [sortedInsert, e, cmpStr_self]
    | lt => simp [sortedInsert, e, cmpStr_self]
    | gt => simp [sortedInsert, e, ih]

theorem sortedInsert_comm {α : Type} (m : List (String × α)) (k₁ k₂ : String) (v₁ v₂ : α)
    (hne : k₁ ≠ k₂) :
    sortedInsert (sortedInsert m k₁ v₁) k₂ v₂ = sortedInsert (sortedInsert m k₂ v₂) k₁ v₁ := by
  induction m with
  | nil =>
    cases e : cmpStr k₁ k₂ with
    | eq => exact absurd ((cmpStr_eq_iff k₁ k₂).mp e) hne
    | lt =>
      have e' : cmpStr k₂ k₁ = Ordering.gt := (cmpStr_gt_iff k₂ k₁).mpr e
      simp [sortedInsert, e, e']
    | gt =>
      have e' : cmpStr k₂ k₁ = Ordering.lt := (cmpStr_gt_iff k₁ k₂).mp e
      simp [sortedInsert, e, e']
  | cons kv rest ih =>
    obtain ⟨k0, v0⟩ := kv
    cases e1 : cmpStr k₁ k0 with
    | eq =>
      have he : k₁ = k0 := (cmpStr_eq_iff k₁ k0).mp e1
      subst he
      cases e2 : cmpStr k₂ k₁ with
      | eq => exact absurd ((cmpStr_eq_iff k₂ k₁).mp e2).symm hne
      | lt =>
        have e2' : cmpStr k₁ k₂ = Ordering.gt := (cmpStr_gt_iff k₁ k₂).mpr e2
        simp [sortedInsert, e1, e2, e2']
      | gt => simp [sortedInsert, e1, e2]
    | lt =>
      cases e21 : cmpStr k₂ k₁ with
      | eq => exact absurd ((cmpStr_eq_iff k₂ k₁).mp e21).symm hne
      | lt =>
        have e20 : cmpStr k₂ k0 = Ordering.lt := cmpStr_lt_trans e21 e1
        have e12 : cmpStr k₁ k₂ = Ordering.gt := (cmpStr_gt_iff k₁ k₂).mpr e21
        simp [sortedInsert, e1, e21, e20, e12]
      | gt =>
        have e12 : cmpStr k₁ k₂ = Ordering.lt := (cmpStr_gt_iff k₂ k₁).mp e21
        cases e2 : cmpStr k₂ k0 with
        | eq => simp [sortedInsert, e1, e2, e12, e21]
        | lt => simp [sortedInsert, e1, e2, e12, e21]
        | gt => simp [sortedInsert, e1, e2, e21]
    | gt =>
      cases e2 : cmpStr k₂ k0 with
      | eq =>
        have he : k₂ = k0 := (cmpStr_eq_iff k₂ k0).mp e2
        have e12 : cmpStr k₁ k₂ = Ordering.gt := by rw [he]; exact e1
        simp [sortedInsert, e1, e2, e12]
      | lt =>
        have e01 : cmpStr k0 k₁ = Ordering.lt := (cmpStr_gt_iff k₁ k0).mp e1
        have e21 : cmpStr k₂ k₁ = Ordering.lt := cmpStr_lt_trans e2 e01
        have e12 : cmpStr k₁ k₂ = Ordering.gt := (cmpStr_gt_iff k₁ k₂).mpr e21
        simp [sortedInsert, e1, e2, e12, e21]
      | gt => simp [sortedInsert, e1, e2, ih]

theorem canonD_nil : canonD [] = [] := by simp [canonD]

theorem canonD_cons (k : String) (v : PVal) (rest : List (String × PVal)) :
    canonD ((k, v) :: rest) = sortedInsert (canonD rest) k (canonV v) := by simp [canonD]

theorem canonV_str (h : String) : canonV (PVal.str h) = PVal.str h := by simp [canonV]

theorem canonV_dict (d : List (String × PVal)) :
    canonV (PVal.dict d) = PVal.dict (canonD d) := by simp [canonV]

theorem canonD_assocSet (d : List (String × PVal)) (k : String) (v : PVal) :
    canonD (assocSet d k v) = sortedInsert (canonD d) k (canonV v) := by
  induction d with
  | nil => simp [assocSet, canonD_cons, canonD_nil]
  | cons kv rest ih =>
    obtain ⟨k0, v0⟩ := kv
    by_cases he : k0 = k
    · subst he
      simp [assocSet, canonD_cons, sortedInsert_overwrite]
    · have hne : k ≠ k0 := fun h => he h.symm
      simp only [assocSet, he, if_false, canonD_cons, ih]
      exact sortedInsert_comm (canonD rest) k k0 (canonV v) (canonV v0) hne

theorem alookup_canonD (d : List (String × PVal)) (k : String) :
    alookup (canonD d) k = (alookup d k).map canonV := by
  induction d with
  | nil => simp [canonD_nil, alookup]
  | cons kv rest ih =>
    obtain ⟨k0, v0⟩ := kv
    by_cases he : k0 = k
    · subst he
      simp [canonD_cons, alookup_sortedInsert_self, alookup]
    · have hne : k ≠ k0 := fun h => he h.symm
      simp [canonD_cons, alookup_sortedInsert_ne (canonD rest) k0 k (canonV v0) hne,
        alookup, he, ih]

theorem map_str_assocSet (f : List (String × String)) (k h : String) :
    (assocSet f k h).map (fun kv => (kv.1, PVal.str kv.2))
      = assocSet (f.map (fun kv => (kv.1, PVal.str kv.2))) k (PVal.str h) := by
  induction f with
  | nil => simp [assocSet]
  | cons kv rest ih =>
    obtain ⟨k0, v0⟩ := kv
    by_cases he : k0 = k
    · subst he
      simp [assocSet]
    · simp [assocSet, he, ih]

theorem canonFiles_assocSet (f : List (String × String)) (k h : String) :
    canonFiles (assocSet f k h) = sortedInsert (canonFiles f) k (PVal.str h) := by
  simp only [canonFiles, map_str_assocSet, canonD_assocSet, canonV_str]

theorem cInsertParts_sim (parts : List String) :
    ∀ (d : List (String × PVal)) (h : String),
      (insertParts d parts h).map canonD = cInsertParts (canonD d) parts h := by
  induction parts with
  | nil =>
    intro d h
    simp [insertParts, cInsertParts]
  | cons p t ih =>
    intro d h
    cases t with
    | nil => simp [insertParts, cInsertParts, canonD_assocSet, canonV_str]
    | cons q rest =>
      have hL : alookup (canonD d) p = (alookup d p).map canonV := alookup_canonD d p
      have ih0 := (ih [] h).symm
      rw [canonD_nil] at ih0
      cases e : alookup d p with
      | none =>
        rw [e] at hL
        simp only [Option.map_none'] at hL
        cases e2 : insertParts [] (q :: rest) h with
        | none =>
          rw [e2] at ih0
          simp only [Option.map_none'] at ih0
          simp [insertParts, cInsertParts, e, e2, hL, ih0]
        | some sub =>
          rw [e2] at ih0
          simp only [Option.map_some'] at ih0
          simp [insertParts, cInsertParts, e, e2, hL, ih0, canonD_assocSet, canonV_dict]
      | some v =>
        rw [e] at hL
        simp only [Option.map_some'] at hL
        cases v with
        | str sv =>
          rw [canonV_str] at hL
          simp [insertParts, cInsertParts, e, hL]
        | dict sub =>
          rw [canonV_dict] at hL
          have ihs := (ih sub h).symm
          cases e2 : insertParts sub (q :: rest) h with
          | none =>
            rw [e2] at ihs
            simp only [Option.map_none'] at ihs
            simp [insertParts, cInsertParts, e, e2, hL, ihs]
          | some sub2 =>
            rw [e2] at ihs
            simp only [Option.map_some'] at ihs
            simp [insertParts, cInsertParts, e, e2, hL, ihs, canonD_assocSet, canonV_dict]

theorem cStep_sim (s : Option (List (String × String) × List (String × PVal)))
    (kv : String × String) : canonPair (buildStep s kv) = cStep (canonPair s) kv := by
  match s with
  | none => rfl
  | some (f, d) =>
    cases hsp : strSplit kv.1 '/' with
    | nil =>
      simp [buildStep, cStep, canonPair, hsp, insertParts, cInsertParts]
    | cons a t =>
      cases t with
      | nil =>
        simp [buildStep, cStep, canonPair, hsp, canonFiles_assocSet]
      | cons b t2 =>
        have hsim := (cInsertParts_sim (a :: b :: t2) d kv.2).symm
        cases e : insertParts d (a :: b :: t2) kv.2 with
        | none =>
          rw [e] at hsim
          simp only [Option.map_none'] at hsim
          simp [buildStep, cStep, canonPair, hsp, e, hsim]
        | some d2 =>
          rw [e] at hsim
          simp only [Option.map_some'] at hsim
          simp [buildStep, cStep, canonPair, hsp, e, hsim]

theorem buildNested_sim (l : List (String × String)) :
    ∀ s, canonPair (l.foldl buildStep s) = l.foldl cStep (canonPair s) := by
  induction l with
  | nil => intro s; rfl
  | cons kv rest ih =>
    intro s
    rw [List.foldl_cons, List.foldl_cons, ih, cStep_sim]

theorem cState_eq (l : List (String × String)) : canonPair (buildNested l) = cState l := by
  rw [buildNested, cState, buildNested_sim]
  simp [canonPair, canonFiles, canonD_nil]

theorem cInsertParts_view (d : List (String × PVal)) (a : String) (t : List String)
    (h : String) :
    cInsertParts d (a :: t) h
      = (cIns1 (alookup d a) t h).map (fun w => sortedInsert d a w) := by
  cases t with
  | nil => simp [cInsertParts, cIns1]
  | cons q rest =>
    cases e : alookup d a with
    | none =>
      cases e2 : cInsertParts [] (q :: rest) h with
      | none => simp [cInsertParts, cIns1, e, e2]
      | some sub => simp [cInsertParts, cIns1, e, e2]
    | some v =>
      cases v with
      | str sv => simp [cInsertParts, cIns1, e]
      | dict sub =>
        cases e2 : cInsertParts sub (q :: rest) h with
        | none => simp [cInsertParts, cIns1, e, e2]
        | some sub2 => simp [cInsertParts, cIns1, e, e2]

theorem cInsertParts_comm (parts₁ : List String) :
    ∀ (parts₂ : List String) (d : List (String × PVal)) (h₁ h₂ : String),
      parts₁ ≠ [] → parts₂ ≠ [] → ¬ (parts₁ <+: parts₂) → ¬ (parts₂ <+: parts₁) →
      (cInsertParts d parts₁ h₁).bind (fun m => cInsertParts m parts₂ h₂)
        = (cInsertParts d parts₂ h₂).bind (fun m => cInsertParts m parts₁ h₁) := by
  induction parts₁ with
  | nil =>
    intro _ _ _ _ hn
    exact absurd rfl hn
  | cons a t₁ ih =>
    intro parts₂ d h₁ h₂ _ hn₂ hp₁₂ hp₂₁
    cases parts₂ with
    | nil => exact absurd rfl hn₂
    | cons b t₂ =>
      by_cases hab : a = b
      · subst hab
        have ht₁₂ : ¬ (t₁ <+: t₂) := fun hp => hp₁₂ (List.cons_prefix_cons.mpr ⟨rfl, hp⟩)
        have ht₂₁ : ¬ (t₂ <+: t₁) := fun hp => hp₂₁ (List.cons_prefix_cons.mpr ⟨rfl, hp⟩)
        have hn₁' : t₁ ≠ [] := by
          intro he
          subst he
          exact hp₁₂ (List.cons_prefix_cons.mpr ⟨rfl, List.nil_prefix⟩)
        have hn₂' : t₂ ≠ [] := by
          intro he
          subst he
          exact hp₂₁ (List.cons_prefix_cons.mpr ⟨rfl, List.nil_prefix⟩)
        obtain ⟨a₁, r₁, rfl⟩ := List.exists_cons_of_ne_nil hn₁'
        obtain ⟨a₂, r₂, rfl⟩ := List.exists_cons_of_ne_nil hn₂'
        have hcomm : ∀ cur : Option PVal,
            (cIns1 cur (a₁ :: r₁) h₁).bind (fun w => cIns1 (some w) (a₂ :: r₂) h₂)
              = (cIns1 cur (a₂ :: r₂) h₂).bind (fun w => cIns1 (some w) (a₁ :: r₁) h₁) := by
          intro cur
          have hbase : ∀ base : List (String × PVal),
              ((cInsertParts base (a₁ :: r₁) h₁).map PVal.dict).bind
                  (fun w => cIns1 (some w) (a₂ :: r₂) h₂)
                = ((cInsertParts base (a₂ :: r₂) h₂).map PVal.dict).bind
                  (fun w => cIns1 (some w) (a₁ :: r₁) h₁) := by
            intro base
            have hbind := ih (a₂ :: r₂) base h₁ h₂ hn₁' hn₂' ht₁₂ ht₂₁
            cases e1 : cInsertParts base (a₁ :: r₁) h₁ with
            | none =>
              rw [e1] at hbind
              simp only [Option.none_bind] at hbind
              cases e2 : cInsertParts base (a₂ :: r₂) h₂ with
              | none => simp
              | some m₂ =>
                rw [e2] at hbind
                simp only [Option.some_bind] at hbind
                simp [cIns1, ← hbind]
            | some m₁ =>
              rw [e1] at hbind
              simp only [Option.some_bind] at hbind
              cases e2 : cInsertParts base (a₂ :: r₂) h₂ with
              | none =>
                rw [e2] at hbind
                simp only [Option.none_bind] at hbind
                simp [cIns1, hbind]
              | some m₂ =>
                rw [e2] at hbind
                simp only [Option.some_bind] at hbind
                simp [cIns1, hbind]
          cases cur with
          | none => exact hbase []
          | some v =>
            cases v with
            | str sv => simp [cIns1]
            | dict sub => exact hbase sub
        rw [cInsertParts_view d a (a₁ :: r₁) h₁, cInsertParts_view d a (a₂ :: r₂) h₂]
        have hc := hcomm (alookup d a)
        cases w1 : cIns1 (alookup d a) (a₁ :: r₁) h₁ with
        | none =>
          rw [w1] at hc
          simp only [Option.none_bind] at hc
          cases w2 : cIns1 (alookup d a) (a₂ :: r₂) h₂ with
          | none => simp
          | some w2v =>
            rw [w2] at hc
            simp only [Option.some_bind] at hc
            simp only [Option.map_none', Option.none_bind, Option.map_some', Option.some_bind]
            rw [cInsertParts_view (sortedInsert d a w2v) a (a₁ :: r₁) h₁,
              alookup_sortedInsert_self, ← hc]
            rfl
        | some w1v =>
          rw [w1] at hc
          simp only [Option.some_bind] at hc
          cases w2 : cIns1 (alookup d a) (a₂ :: r₂) h₂ with
          | none =>
            rw [w2] at hc
            simp only [Option.none_bind] at hc
            simp only [Option.map_none', Option.none_bind, Option.map_some', Option.some_bind]
            rw [cInsertParts_view (sortedInsert d a w1v) a (a₂ :: r₂) h₂,
              alookup_sortedInsert_self, hc]
            rfl
          | some w2v =>
            rw [w2] at hc
            simp only [Option.some_bind] at hc
            simp only [Option.map_some', Option.some_bind]
            rw [cInsertParts_view (sortedInsert d a w1v) a (a₂ :: r₂) h₂,
              alookup_sortedInsert_self,
              cInsertParts_view (sortedInsert d a w2v) a (a₁ :: r₁) h₁,
              alookup_sortedInsert_self, hc]
            cases hcw : cIns1 (some w2v) (a₁ :: r₁) h₁ with
            | none => simp
            | some w =>
              simp [sortedInsert_overwrite]
      · rw [cInsertParts_view d a t₁ h₁, cInsertParts_view d b t₂ h₂]
        have hba : b ≠ a := fun he => hab he.symm
        cases w1 : cIns1 (alookup d a) t₁ h₁ with
        | none =>
          cases w2 : cIns1 (alookup d b) t₂ h₂ with
          | none => simp
          | some w2v =>
            simp only [Option.map_none', Option.none_bind, Option.map_some', Option.some_bind]
            rw [cInsertParts_view (sortedInsert d b w2v) a t₁ h₁,
              alookup_sortedInsert_ne d b a w2v hab, w1]
            rfl
        | some w1v =>
          cases w2 : cIns1 (alookup d b) t₂ h₂ with
          | none =>
            simp only [Option.map_none', Option.none_bind, Option.map_some', Option.some_bind]
            rw [cInsertParts_view (sortedInsert d a w1v) b t₂ h₂,
              alookup_sortedInsert_ne d a b w1v hba, w2]
            rfl
          | some w2v =>
            simp only [Option.map_some', Option.some_bind]
            rw [cInsertParts_view (sortedInsert d a w1v) b t₂ h₂,
              alookup_sortedInsert_ne d a b w1v hba, w2,
              cInsertParts_view (sortedInsert d b w2v) a t₁ h₁,
              alookup_sortedInsert_ne d b a w2v hab, w1]
            simp [sortedInsert_comm d a b w1v w2v hab]

theorem cStep_comm (x y : String × String) (hc : NoConflict x.1 y.1)
    (z : Option (List (String × PVal) × List (String × PVal))) :
    cStep (cStep z x) y = cStep (cStep z y) x := by
  obtain ⟨hpxy, hpyx⟩ := hc
  simp only [pathParts] at hpxy hpyx
  match z with
  | none => rfl
  | some (cf, cd) =>
    cases hx : strSplit x.1 '/' with
    | nil =>
      have hL : cStep (some (cf, cd)) x = none := by
        simp [cStep, hx, cInsertParts]
      rw [hL]
      cases e : cStep (some (cf, cd)) y with
      | none => rfl
      | some p2 =>
        obtain ⟨cf2, cd2⟩ := p2
        simp [cStep, hx, cInsertParts]
    | cons p tx =>
      cases hy : strSplit y.1 '/' with
      | nil =>
        have hL : cStep (some (cf, cd)) y = none := by
          simp [cStep, hy, cInsertParts]
        rw [hL]
        cases e : cStep (some (cf, cd)) x with
        | none => rfl
        | some p2 =>
          obtain ⟨cf2, cd2⟩ := p2
          simp [cStep, hy, cInsertParts]
      | cons q ty =>
        cases tx with
        | nil =>
          cases ty with
          | nil =>
            rw [hx, hy] at hpxy
            have hpq : p ≠ q := by
              intro he
              subst he
              exact hpxy (List.prefix_refl _)
            simp [cStep, hx, hy,
              sortedInsert_comm cf p q (PVal.str x.2) (PVal.str y.2) hpq]
          | cons b2 ty2 =>
            cases e : cInsertParts cd (q :: b2 :: ty2) y.2 with
            | none => simp [cStep, hx, hy, e]
            | some cd2 => simp [cStep, hx, hy, e]
        | cons bx tx2 =>
          cases ty with
          | nil =>
            cases e : cInsertParts cd (p :: bx :: tx2) x.2 with
            | none => simp [cStep, hx, hy, e]
            | some cd2 => simp [cStep, hx, hy, e]
          | cons by2 ty2 =>
            rw [hx, hy] at hpxy hpyx
            have hbind := cInsertParts_comm (p :: bx :: tx2) (q :: by2 :: ty2) cd x.2 y.2
              (List.cons_ne_nil _ _) (List.cons_ne_nil _ _) hpxy hpyx
            cases e1 : cInsertParts cd (p :: bx :: tx2) x.2 with
            | none =>
              rw [e1] at hbind
              simp only [Option.none_bind] at hbind
              cases e2 : cInsertParts cd (q :: by2 :: ty2) y.2 with
              | none => simp [cStep, hx, hy, e1, e2]
              | some cdY =>
                rw [e2] at hbind
                simp only [Option.some_bind] at hbind
                simp [cStep, hx, hy, e1, e2, ← hbind]
            | some cdX =>
              rw [e1] at hbind
              simp only [Option.some_bind] at hbind
              cases e2 : cInsertParts cd (q :: by2 :: ty2) y.2 with
              | none =>
                rw [e2] at hbind
                simp only [Option.none_bind] at hbind
                simp [cStep, hx, hy, e1, e2, hbind]
              | some cdY =>
                rw [e2] at hbind
                simp only [Option.some_bind] at hbind
                cases ec : cInsertParts cdX (q :: by2 :: ty2) y.2 with
                | none =>
                  rw [ec] at hbind
                  simp [cStep, hx, hy, e1, e2, ec, ← hbind]
                | some cdc =>
                  rw [ec] at hbind
                  simp [cStep, hx, hy, e1, e2, ec, ← hbind]

theorem cState_perm (l₁ l₂ : List (String × String)) (hwf : WfIndex l₁)
    (hp : l₁.Perm l₂) : cState l₁ = cState l₂ := by
  have hsym : Symmetric (fun x y : String × String => NoConflict x.1 y.1) := by
    intro x y hxy
    exact ⟨hxy.2, hxy.1⟩
  have hcomm : ∀ x ∈ l₁, ∀ y ∈ l₁, ∀ z,
      cStep (cStep z x) y = cStep (cStep z y) x := by
    intro x hx y hy z
    by_cases hxy : x = y
    · subst hxy
      rfl
    · exact cStep_comm x y (List.Pairwise.forall hsym hwf hx hy hxy) z
  simp only [cState]
  exact List.Perm.foldl_eq' hp hcomm (some ([], []))

theorem store_object_snd (sha1 : String → String) (st : Store) (o : VCObject) :
    (store_object sha1 st o).2 = vcHash sha1 o := by
  unfold store_object
  cases hl : alookup st (vcHash sha1 o) <;> rfl

theorem entriesFromDict_snd (sha1 : String → String) :
    ∀ n : Nat, ∀ l : List (String × PVal), sizeOf l ≤ n → ∀ st : Store,
      (entriesFromDict sha1 st l).2 = dictEntries sha1 l := by
  intro n
  induction n with
  | zero =>
    intro l hl
    cases l with
    | nil => intro st; simp [entriesFromDict, dictEntries]
    | cons a rest =>
      exfalso
      simp only [List.cons.sizeOf_spec] at hl
      omega
  | succ n ih =>
    intro l hl st
    match l with
    | [] => simp [entriesFromDict, dictEntries]
    | (name, PVal.str h) :: rest =>
      have hr : sizeOf rest ≤ n := by
        simp only [List.cons.sizeOf_spec, Prod.mk.sizeOf_spec] at hl
        omega
      simp [entriesFromDict, dictEntries, ih rest hr st]
    | (name, PVal.dict sub) :: rest =>
      have hr : sizeOf rest ≤ n := by
        simp only [List.cons.sizeOf_spec, Prod.mk.sizeOf_spec, PVal.dict.sizeOf_spec] at hl
        omega
      have hsub : sizeOf sub ≤ n := by
        simp only [List.cons.sizeOf_spec, Prod.mk.sizeOf_spec, PVal.dict.sizeOf_spec] at hl
        omega
      have hsubE := ih sub hsub st
      simp [entriesFromDict, treeFromDict, dictEntries, dictHash, ih rest hr, hsubE,
        store_object_snd]

theorem treeFromDict_snd (sha1 : String → String) (st : Store) (d : List (String × PVal)) :
    (treeFromDict sha1 st d).2 = dictHash sha1 d := by
  simp [treeFromDict, store_object_snd, dictHash,
    entriesFromDict_snd sha1 (sizeOf d) d (le_refl _) st]

theorem create_tree_snd (sha1 : String → String) (r : Repo) :
    (create_tree_from_index sha1 r).map Prod.snd = indexTreeHash sha1 r.index := by
  rw [create_tree_from_index, indexTreeHash]
  by_cases he : r.index.isEmpty
  · simp [he, store_object_snd]
  · simp only [he, if_false, Bool.false_eq_true]
    cases e : buildNested r.index with
    | none => simp
    | some fd =>
      obtain ⟨files, dirs⟩ := fd
      simp [treeFromDict_snd]

theorem alookup_mem {α : Type} (d : List (String × α)) (k : String) (v : α)
    (h : alookup d k = some v) : (k, v) ∈ d := by
  induction d with
  | nil => exact absurd h (by simp [alookup])
  | cons kw rest ih =>
    obtain ⟨k0, v0⟩ := kw
    by_cases he : k0 = k
    · subst he
      simp [alookup] at h
      subst h
      exact List.mem_cons_self _ _
    · simp only [alookup, if_neg he] at h
      exact List.mem_cons_of_mem _ (ih h)

theorem mem_assocSet {α : Type} (d : List (String × α)) (k : String) (v : α)
    (kv : String × α) (h : kv ∈ assocSet d k v) : kv ∈ d ∨ kv = (k, v) := by
  induction d with
  | nil =>
    simp only [assocSet, List.mem_singleton] at h
    exact Or.inr h
  | cons kw rest ih =>
    obtain ⟨k0, v0⟩ := kw
    by_cases he : k0 = k
    · subst he
      simp only [assocSet, if_pos rfl] at h
      rcases List.mem_cons.mp h with h1 | h1
      · exact Or.inr h1
      · exact Or.inl (List.mem_cons_of_mem _ h1)
    · simp only [assocSet, if_neg he] at h
      rcases List.mem_cons.mp h with h1 | h1
      · exact Or.inl (by rw [h1]; exact List.mem_cons_self _ _)
      · rcases ih h1 with h2 | h2
        · exact Or.inl (List.mem_cons_of_mem _ h2)
        · exact Or.inr h2

theorem mem_keys_assocSet {α : Type} (d : List (String × α)) (k : String) (v : α)
    (x : String) (h : x ∈ (assocSet d k v).map Prod.fst) :
    x ∈ d.map Prod.fst ∨ x = k := by
  rcases List.mem_map.mp h with ⟨kv, hkv, hx⟩
  rcases mem_assocSet d k v kv hkv with h1 | h1
  · left
    rw [← hx]
    exact List.mem_map_of_mem Prod.fst h1
  · right
    rw [← hx, h1]

theorem nodup_keys_assocSet {α : Type} (d : List (String × α)) (k : String) (v : α)
    (h : (d.map Prod.fst).Nodup) : ((assocSet d k v).map Prod.fst).Nodup := by
  induction d with
  | nil => simp [assocSet]
  | cons kw rest ih =>
    obtain ⟨k0, v0⟩ := kw
    simp only [List.map_cons, List.nodup_cons] at h
    obtain ⟨hk0, hrest⟩ := h
    by_cases he : k0 = k
    · subst he
      have hset : assocSet ((k0, v0) :: rest) k0 v = (k0, v) :: rest := by
        simp [assocSet]
      rw [hset, List.map_cons, List.nodup_cons]
      exact ⟨hk0, hrest⟩
    · simp only [assocSet, if_neg he, List.map_cons, List.nodup_cons]
      refine ⟨?_, ih hrest⟩
      intro hmem
      rcases mem_keys_assocSet rest k v k0 hmem with h1 | h1
      · exact hk0 h1
      · exact he h1

theorem vok_assocSet_vals (d : List (String × PVal)) (k : String) (v : PVal)
    (hd : ∀ kv ∈ d, VOK kv.2) (hv : VOK v) : ∀ kv ∈ assocSet d k v, VOK kv.2 := by
  intro kv hkv
  rcases mem_assocSet d k v kv hkv with h1 | h1
  · exact hd kv h1
  · rw [h1]
    exact hv

theorem VOK_assocSet (d : List (String × PVal)) (k : String) (v : PVal)
    (hd : VOK (PVal.dict d)) (hv : VOK v) : VOK (PVal.dict (assocSet d k v)) := by
  cases hd with
  | dict _ hnd hvals =>
    exact VOK.dict _ (nodup_keys_assocSet d k v hnd) (vok_assocSet_vals d k v hvals hv)

theorem VOK_insertParts (parts : List String) :
    ∀ (d d' : List (String × PVal)) (h : String), VOK (PVal.dict d) →
      insertParts d parts h = some d' → VOK (PVal.dict d') := by
  induction parts with
  | nil =>
    intro d d' h _ he
    simp [insertParts] at he
  | cons p t ih =>
    intro d d' h hd he
    cases t with
    | nil =>
      simp only [insertParts, Option.some.injEq] at he
      rw [← he]
      exact VOK_assocSet d p (PVal.str h) hd (VOK.str h)
    | cons q rest =>
      cases e : alookup d p with
      | none =>
        cases e2 : insertParts [] (q :: rest) h with
        | none => simp [insertParts, e, e2] at he
        | some sub =>
          simp only [insertParts, e, e2, Option.some.injEq] at he
          have hsub := ih [] sub h (VOK.dict [] (by simp) (by simp)) e2
          rw [← he]
          exact VOK_assocSet d p (PVal.dict sub) hd hsub
      | some v =>
        cases v with
        | str sv => simp [insertParts, e] at he
        | dict sub =>
          have hsubV : VOK (PVal.dict sub) := by
            cases hd with
            | dict _ hnd hvals => exact hvals (p, PVal.dict sub) (alookup_mem d p _ e)
          cases e2 : insertParts sub (q :: rest) h with
          | none => simp [insertParts, e, e2] at he
          | some sub2 =>
            simp only [insertParts, e, e2, Option.some.injEq] at he
            have hsub2 := ih sub sub2 h hsubV e2
            rw [← he]
            exact VOK_assocSet d p (PVal.dict sub2) hd hsub2

theorem buildStep_inv (s : Option (List (String × String) × List (String × PVal)))
    (kv : String × String)
    (hs : ∀ f d, s = some (f, d) → (f.map Prod.fst).Nodup ∧ VOK (PVal.dict d)) :
    ∀ f d, buildStep s kv = some (f, d) → (f.map Prod.fst).Nodup ∧ VOK (PVal.dict d) := by
  intro f d hb
  match s with
  | none => exact absurd hb (by simp [buildStep])
  | some (f0, d0) =>
    obtain ⟨hnd0, hvok0⟩ := hs f0 d0 rfl
    cases hsp : strSplit kv.1 '/' with
    | nil => simp [buildStep, hsp, insertParts] at hb
    | cons a t =>
      cases t with
      | nil =>
        simp only [buildStep, hsp, Option.some.injEq, Prod.mk.injEq] at hb
        obtain ⟨hf, hd⟩ := hb
        constructor
        · rw [← hf]
          exact nodup_keys_assocSet f0 a kv.2 hnd0
        · rw [← hd]
          exact hvok0
      | cons b t2 =>
        cases e : insertParts d0 (a :: b :: t2) kv.2 with
        | none => simp [buildStep, hsp, e] at hb
        | some d2 =>
          simp only [buildStep, hsp, e, Option.some.injEq, Prod.mk.injEq] at hb
          obtain ⟨hf, hd⟩ := hb
          constructor
          · rw [← hf]
            exact hnd0
          · rw [← hd]
            exact VOK_insertParts (a :: b :: t2) d0 d2 kv.2 hvok0 e

theorem buildNested_inv (l : List (String × String)) :
    ∀ s, (∀ f d, s = some (f, d) → (f.map Prod.fst).Nodup ∧ VOK (PVal.dict d)) →
      ∀ f d, l.foldl buildStep s = some (f, d) →
        (f.map Prod.fst).Nodup ∧ VOK (PVal.dict d) := by
  induction l with
  | nil =>
    intro s hs f d hb
    exact hs f d hb
  | cons kv rest ih =>
    intro s hs f d hb
    rw [List.foldl_cons] at hb
    exact ih (buildStep s kv) (buildStep_inv s kv hs) f d hb

theorem vok_foldl_assocSet (d : List (String × PVal)) :
    ∀ m : List (String × PVal), VOK (PVal.dict m) → (∀ kv ∈ d, VOK kv.2) →
      VOK (PVal.dict (d.foldl (fun m kv => assocSet m kv.1 kv.2) m)) := by
  induction d with
  | nil =>
    intro m hm _
    exact hm
  | cons kv rest ih =>
    intro m hm hvals
    rw [List.foldl_cons]
    exact ih (assocSet m kv.1 kv.2)
      (VOK_assocSet m kv.1 kv.2 hm (hvals kv (List.mem_cons_self _ _)))
      (fun x hx => hvals x (List.mem_cons_of_mem _ hx))

theorem vok_mergeRoot (f : List (String × String)) (d : List (String × PVal))
    (hnf : (f.map Prod.fst).Nodup) (hd : VOK (PVal.dict d)) :
    VOK (PVal.dict (mergeRoot f d)) := by
  have hvals : ∀ kv ∈ d, VOK kv.2 := by
    cases hd with
    | dict _ _ hv => exact hv
  rw [mergeRoot]
  apply vok_foldl_assocSet
  · apply VOK.dict
    · rw [List.map_map]
      exact hnf
    · intro kv hkv
      rcases List.mem_map.mp hkv with ⟨a, _, ha⟩
      rw [← ha]
      exact VOK.str _
  · exact hvals

theorem sortedInsert_perm {α : Type} (m : List (String × α)) (k : String) (v : α)
    (hk : ¬ k ∈ m.map Prod.fst) : (sortedInsert m k v).Perm ((k, v) :: m) := by
  induction m with
  | nil =>
    have : sortedInsert ([] : List (String × α)) k v = [(k, v)] := rfl
    rw [this]
  | cons kw rest ih =>
    obtain ⟨k0, v0⟩ := kw
    simp only [List.map_cons, List.mem_cons] at hk
    push_neg at hk
    obtain ⟨hk0, hkrest⟩ := hk
    cases e : cmpStr k k0 with
    | eq => exact absurd ((cmpStr_eq_iff k k0).mp e) hk0
    | lt =>
      have hr : sortedInsert ((k0, v0) :: rest) k v = (k, v) :: (k0, v0) :: rest := by
        simp [sortedInsert, e]
      rw [hr]
    | gt =>
      have hr : sortedInsert ((k0, v0) :: rest) k v = (k0, v0) :: sortedInsert rest k v := by
        simp [sortedInsert, e]
      rw [hr]
      exact (List.Perm.cons (k0, v0) (ih hkrest)).trans (List.Perm.swap (k, v) (k0, v0) rest)

theorem canonD_perm (m : List (String × PVal)) (h : (m.map Prod.fst).Nodup) :
    (canonD m).Perm (m.map (fun kv => (kv.1, canonV kv.2))) := by
  induction m with
  | nil =>
    rw [canonD_nil, List.map_nil]
  | cons kv rest ih =>
    obtain ⟨k, v⟩ := kv
    simp only [List.map_cons, List.nodup_cons] at h
    obtain ⟨hk, hrest⟩ := h
    rw [canonD_cons, List.map_cons]
    have hperm := ih hrest
    have hkeys : ¬ k ∈ (canonD rest).map Prod.fst := by
      intro hmem
      apply hk
      have hpk := hperm.map Prod.fst
      have hk2 := hpk.mem_iff.mp hmem
      rw [List.map_map] at hk2
      exact hk2
    exact (sortedInsert_perm (canonD rest) k (canonV v) hkeys).trans
      (List.Perm.cons _ hperm)

theorem dictEntries_eq_map (sha1 : String → String) (l : List (String × PVal)) :
    dictEntries sha1 l = l.map (entryOfPair sha1) := by
  induction l with
  | nil => simp [dictEntries]
  | cons kv rest ih =>
    obtain ⟨k, v⟩ := kv
    cases v with
    | str h => simp [dictEntries, entryOfPair, ih]
    | dict sub => simp [dictEntries, entryOfPair, ih]

theorem serializeEntries_perm (es₁ es₂ : List Entry) (hp : es₁.Perm es₂) :
    serializeEntries es₁ = serializeEntries es₂ := by
  haveI h1 : IsAntisymm Entry entryLe := ⟨entryLe_antisymm⟩
  haveI h2 : IsTotal Entry entryLe := ⟨entryLe_total⟩
  haveI h3 : IsTrans Entry entryLe := ⟨entryLe_trans⟩
  have hs : sortEntries es₁ = sortEntries es₂ :=
    List.eq_of_perm_of_sorted
      ((List.perm_insertionSort entryLe es₁).trans
        (hp.trans (List.perm_insertionSort entryLe es₂).symm))
      (sortEntries_sorted es₁) (sortEntries_sorted es₂)
  rw [serializeEntries, serializeEntries, hs]

theorem dictHash_canon (sha1 : String → String) :
    ∀ n : Nat, ∀ m : List (String × PVal), sizeOf m ≤ n → VOK (PVal.dict m) →
      dictHash sha1 (canonD m) = dictHash sha1 m := by
  intro n
  induction n with
  | zero =>
    intro m hm hv
    cases m with
    | nil => rw [canonD_nil]
    | cons a rest =>
      exfalso
      simp only [List.cons.sizeOf_spec] at hm
      omega
  | succ n ih =>
    intro m hm hv
    obtain ⟨hnd, hvals⟩ : (m.map Prod.fst).Nodup ∧ ∀ kv ∈ m, VOK kv.2 := by
      cases hv with
      | dict _ h1 h2 => exact ⟨h1, h2⟩
    have hperm : (dictEntries sha1 (canonD m)).Perm (dictEntries sha1 m) := by
      rw [dictEntries_eq_map sha1 (canonD m), dictEntries_eq_map sha1 m]
      have hp1 := (canonD_perm m hnd).map (entryOfPair sha1)
      rw [List.map_map] at hp1
      have hcongr : m.map (entryOfPair sha1 ∘ fun kv => (kv.1, canonV kv.2))
          = m.map (entryOfPair sha1) := by
        apply List.map_congr_left
        intro kv hkv
        obtain ⟨k, v⟩ := kv
        cases v with
        | str hstr => simp [Function.comp, entryOfPair, canonV_str]
        | dict sub =>
          simp only [Function.comp, entryOfPair, canonV_dict]
          have hsz : sizeOf sub ≤ n := by
            have hmem := List.sizeOf_lt_of_mem hkv
            simp only [Prod.mk.sizeOf_spec, PVal.dict.sizeOf_spec] at hmem
            omega
          have hvsub : VOK (PVal.dict sub) := hvals (k, PVal.dict sub) hkv
          rw [ih sub hsz hvsub]
      rw [hcongr] at hp1
      exact hp1
    have hser := serializeEntries_perm _ _ hperm
    simp only [dictHash, TreeObj]
    rw [hser]

theorem canonD_foldl_assocSet (l : List (String × PVal)) :
    ∀ base, canonD (l.foldl (fun m kv => assocSet m kv.1 kv.2) base)
      = l.foldl (fun m kv => sortedInsert m kv.1 (canonV kv.2)) (canonD base) := by
  induction l with
  | nil => intro base; rfl
  | cons kv rest ih =>
    intro base
    rw [List.foldl_cons, List.foldl_cons, ih, canonD_assocSet]

theorem foldl_sortedInsert_map (d : List (String × PVal)) :
    ∀ base, d.foldl (fun m kv => sortedInsert m kv.1 (canonV kv.2)) base
      = (d.map (fun kv => (kv.1, canonV kv.2))).foldl
          (fun m kv => sortedInsert m kv.1 kv.2) base := by
  induction d with
  | nil => intro base; rfl
  | cons kv rest ih =>
    intro base
    simp only [List.foldl_cons, List.map_cons]
    rw [ih]

theorem foldl_sortedInsert_perm {l₁ l₂ : List (String × PVal)}
    (hp : l₁.Perm l₂) (hnd : (l₁.map Prod.fst).Nodup) (base : List (String × PVal)) :
    l₁.foldl (fun m kv => sortedInsert m kv.1 kv.2) base
      = l₂.foldl (fun m kv => sortedInsert m kv.1 kv.2) base := by
  have hcomm : ∀ x ∈ l₁, ∀ y ∈ l₁, ∀ z : List (String × PVal),
      sortedInsert (sortedInsert z x.1 x.2) y.1 y.2
        = sortedInsert (sortedInsert z y.1 y.2) x.1 x.2 := by
    intro x hx y hy z
    by_cases hxy : x = y
    · subst hxy
      rfl
    · have hk : x.1 ≠ y.1 := by
        intro he
        exact hxy (List.inj_on_of_nodup_map hnd hx hy he)
      exact sortedInsert_comm z x.1 y.1 x.2 y.2 hk
  exact List.Perm.foldl_eq' hp hcomm base

theorem canonD_mergeRoot (f : List (String × String)) (d : List (String × PVal))
    (hnd : (d.map Prod.fst).Nodup) :
    canonD (mergeRoot f d)
      = (canonD d).foldl (fun m kv => sortedInsert m kv.1 kv.2) (canonFiles f) := by
  rw [mergeRoot, canonD_foldl_assocSet]
  have h1 : canonD (f.map (fun kv => (kv.1, PVal.str kv.2))) = canonFiles f := rfl
  rw [h1, foldl_sortedInsert_map]
  apply foldl_sortedInsert_perm
  · exact (canonD_perm d hnd).symm
  · rw [List.map_map]
    exact hnd

/-- C2 fails as stated: the two indexes hold exactly the same (path, hash)
    pairs, yet one insertion order raises a TypeError on the conflicting paths
    a/b and a/b/c while the reverse order silently drops the nested file and
    returns a root tree hash, so the root hash is not order-independent. -/
theorem tree_from_index_order_counterexample :
    c2repoA.index.Perm c2repoB.index
      ∧ (create_tree_from_index constH c2repoA).map Prod.snd = none
      ∧ (create_tree_from_index constH c2repoB).map Prod.snd = some "H" := by
  refine ⟨List.Perm.swap _ _ _, ?_, ?_⟩
  · simp [create_tree_from_index, c2repoA, buildNested, buildStep, strSplit, splitChar,
      insertParts, alookup, assocSet, List.foldl]
  · simp [create_tree_from_index, c2repoB, buildNested, buildStep, strSplit, splitChar,
      insertParts, mergeRoot, treeFromDict, entriesFromDict, store_object, vcHash,
      constH, alookup, assocSet, List.foldl]

/-- C2 (amended): for a staging index that can come from a real working tree,
    namely one whose paths are pairwise non-conflicting (no path equal to or a
    directory prefix of another), create_tree_from_index returns the same root
    tree hash for every insertion order of the index. -/
theorem tree_from_index_perm_invariant (sha1 : String → String) (r₁ r₂ : Repo)
    (hwf : WfIndex r₁.index) (hperm : r₁.index.Perm r₂.index) :
    (create_tree_from_index sha1 r₁).map Prod.snd
      = (create_tree_from_index sha1 r₂).map Prod.snd := by
  rw [create_tree_snd, create_tree_snd, indexTreeHash, indexTreeHash]
  by_cases h1 : r₁.index = []
  · have h2 : r₂.index = [] := by
      rw [h1] at hperm
      exact hperm.symm.eq_nil
    rw [h1, h2]
  · have h2 : r₂.index ≠ [] := by
      intro he
      rw [he] at hperm
      exact h1 hperm.eq_nil
    have e1 : r₁.index.isEmpty = false := by
      cases hl : r₁.index with
      | nil => exact absurd hl h1
      | cons a t => rfl
    have e2 : r₂.index.isEmpty = false := by
      cases hl : r₂.index with
      | nil => exact absurd hl h2
      | cons a t => rfl
    rw [e1, e2]
    simp only [Bool.false_eq_true, if_false]
    have hcanon : canonPair (buildNested r₁.index) = canonPair (buildNested r₂.index) := by
      rw [cState_eq, cState_eq]
      exact cState_perm _ _ hwf hperm
    have hbase : ∀ f : List (String × String), ∀ d : List (String × PVal),
        (some ([], []) : Option (List (String × String) × List (String × PVal)))
          = some (f, d) → (f.map Prod.fst).Nodup ∧ VOK (PVal.dict d) := by
      intro f d he
      simp only [Option.some.injEq, Prod.mk.injEq] at he
      obtain ⟨hf, hd⟩ := he
      rw [← hf, ← hd]
      exact ⟨by simp, VOK.dict [] (by simp) (by simp)⟩
    cases b1 : buildNested r₁.index with
    | none =>
      rw [b1] at hcanon
      cases b2 : buildNested r₂.index with
      | none => rfl
      | some fd2 =>
        rw [b2] at hcanon
        obtain ⟨f2, d2⟩ := fd2
        exact absurd hcanon (by simp [canonPair])
    | some fd1 =>
      obtain ⟨f1, d1⟩ := fd1
      rw [b1] at hcanon
      cases b2 : buildNested r₂.index with
      | none =>
        rw [b2] at hcanon
        exact absurd hcanon (by simp [canonPair])
      | some fd2 =>
        obtain ⟨f2, d2⟩ := fd2
        rw [b2] at hcanon
        simp only [canonPair, Option.some.injEq, Prod.mk.injEq] at hcanon
        obtain ⟨hcf, hcd⟩ := hcanon
        have b1' : r₁.index.foldl buildStep (some ([], [])) = some (f1, d1) := b1
        have b2' : r₂.index.foldl buildStep (some ([], [])) = some (f2, d2) := b2
        obtain ⟨hnd1, hvok1⟩ := buildNested_inv r₁.index (some ([], [])) hbase f1 d1 b1'
        obtain ⟨hnd2, hvok2⟩ := buildNested_inv r₂.index (some ([], [])) hbase f2 d2 b2'
        have hq1 : (d1.map Prod.fst).Nodup := by
          cases hvok1 with
          | dict _ hq _ => exact hq
        have hq2 : (d2.map Prod.fst).Nodup := by
          cases hvok2 with
          | dict _ hq _ => exact hq
        have hv1 : VOK (PVal.dict (mergeRoot f1 d1)) := vok_mergeRoot f1 d1 hnd1 hvok1
        have hv2 : VOK (PVal.dict (mergeRoot f2 d2)) := vok_mergeRoot f2 d2 hnd2 hvok2
        have hkey : canonD (mergeRoot f1 d1) = canonD (mergeRoot f2 d2) := by
          rw [canonD_mergeRoot f1 d1 hq1, canonD_mergeRoot f2 d2 hq2, hcf, hcd]
        have hh1 := dictHash_canon sha1 (sizeOf (mergeRoot f1 d1)) (mergeRoot f1 d1)
          (le_refl _) hv1
        have hh2 := dictHash_canon sha1 (sizeOf (mergeRoot f2 d2)) (mergeRoot f2 d2)
          (le_refl _) hv2
        simp only [Option.map_some']
        rw [← hh1, ← hh2, hkey]

/-- Concrete instance of the amended C2 theorem: a two-file index with
    non-conflicting paths gives the same root hash in both insertion orders. -/
theorem tree_from_index_perm_invariant_witness :
    WfIndex c2repoC.index ∧ c2repoC.index.Perm c2repoD.index
      ∧ (create_tree_from_index constH c2repoC).map Prod.snd
          = (create_tree_from_index constH c2repoD).map Prod.snd := by
  have hnc : NoConflict "a" "d/c" := by
    constructor
    · intro hp
      obtain ⟨t, ht⟩ := hp
      simp [pathParts, strSplit, splitChar] at ht
    · intro hp
      obtain ⟨t, ht⟩ := hp
      simp [pathParts, strSplit, splitChar] at ht
  have hwf : WfIndex c2repoC.index := by
    refine List.Pairwise.cons ?_ (List.Pairwise.cons ?_ List.Pairwise.nil)
    · intro y hy
      simp only [List.mem_singleton] at hy
      subst hy
      exact hnc
    · intro y hy
      simp at hy
  exact ⟨hwf, List.Perm.swap _ _ _,
    tree_from_index_perm_invariant constH c2repoC c2repoD hwf (List.Perm.swap _ _ _)⟩

end VCS
